import Mathlib

/-!
# Verification of the version-it library (SemVer / CalVer)

Shallow embedding of the TypeScript sources of `dev-build-deploy/version-it`:

* `src/src/modifiers.ts`  — pre-release modifier chains (`getModifiers`,
  `incrementModifier`, `compareModifiers`, `modifiersToString`);
* `src/src/semver.ts`     — the SemVer engine (chain-based pre-releases);
* `src/src/calver.ts`     — the CalVer engine whose modifier is a single
  optional `key.value` string;
* `src/unnamed/part_000`  — the CalVer variant whose modifier is a chain of
  `Modifier`s with a static `fromString`;
* `src/unnamed/part_001`  — `getKeyValuePair`.

Modelling conventions:

* JavaScript strings are modelled as `List Char`; JavaScript numbers are
  modelled as exact integers (`Nat`/`Int`).  IEEE-754 artefacts (rounding
  above 2^53, fractional values, `Infinity`, `NaN`) are outside the model;
  every theorem below whose truth could depend on them carries hypotheses
  that keep inputs inside the integer fragment.
* The wall clock (`new Date()`, `getISO8601WeekNumber`) is the external
  clock collaborator of the spec; it is modelled as an explicit `Clock`
  record threaded through `CalVer.increment`.
* `String.prototype.localeCompare` is host-locale dependent.  Modelled from
  the spec: the spec's non-goals exclude "locale-aware string collation
  beyond simple ordinal comparison", so `localeCompare` is modelled as
  ordinal code-unit comparison normalised to -1/0/1.
-/

/-! ## String and number primitives -/

/-- Digit-extraction loop of `natToChars`; the first argument is fuel
bounding the recursion depth, so that the definition is structural and the
kernel can evaluate it on concrete inputs. -/
def natToCharsAux : Nat → Nat → List Char
  | 0, _ => []
  | fuel + 1, n =>
    if n = 0 then []
    else natToCharsAux fuel (n / 10) ++ [Char.ofNat (48 + n % 10)]

/-- Decimal digit characters of a natural number, most significant first;
models JavaScript `Number.prototype.toString` for non-negative integers. -/
def natToChars (n : Nat) : List Char :=
  if n = 0 then ['0'] else natToCharsAux n n

theorem natToCharsAux_eq_digits (fuel n : Nat) (h : n ≤ fuel) :
    natToCharsAux fuel n =
      ((Nat.digits 10 n).map (fun d => Char.ofNat (48 + d))).reverse := by
  induction fuel generalizing n with
  | zero =>
    have : n = 0 := Nat.le_zero.mp h
    subst this
    simp [natToCharsAux]
  | succ fuel ih =>
    by_cases hn : n = 0
    · subst hn; simp [natToCharsAux]
    · have hdiv : n / 10 ≤ fuel := by
        have := Nat.div_lt_self (Nat.pos_of_ne_zero hn) (by norm_num : 1 < 10)
        omega
      simp only [natToCharsAux, if_neg hn]
      rw [ih _ hdiv, Nat.digits_def' (by norm_num : 1 < 10)
        (Nat.pos_of_ne_zero hn)]
      simp

/-- `natToChars` agrees with the `Nat.digits` presentation. -/
theorem natToChars_eq_digits (n : Nat) :
    natToChars n =
      if n = 0 then ['0']
      else ((Nat.digits 10 n).map (fun d => Char.ofNat (48 + d))).reverse := by
  by_cases hn : n = 0
  · simp [natToChars, hn]
  · simp only [natToChars, if_neg hn]
    exact natToCharsAux_eq_digits n n le_rfl

/-- Value of a list of decimal digit characters; models `parseInt` on a
string of digits. -/
def charsToNat (s : List Char) : Nat :=
  Nat.ofDigits 10 ((s.map (fun c => c.toNat - 48)).reverse)

/-- JavaScript `Number.prototype.toString` for integers (negative values
render with a leading minus; `(-0).toString()` is `"0"`, matching `Int`). -/
def intToChars (i : Int) : List Char :=
  if i < 0 then '-' :: natToChars i.natAbs else natToChars i.toNat

/-- JavaScript `String.prototype.padStart(k, '0')`. -/
def padStart (k : Nat) (c : Char) (s : List Char) : List Char :=
  List.replicate (k - s.length) c ++ s

/-- `s.substring(s.length - k)`: the last `k` characters (JavaScript
`substring` clamps a negative start index to 0, which the truncated `Nat`
subtraction models exactly). -/
def takeLast (k : Nat) (s : List Char) : List Char :=
  s.drop (s.length - k)

/-- JavaScript `String.prototype.split(sep)` for a single-character
separator (`"".split(".") = [""]`). -/
def splitOnChar (sep : Char) : List Char → List (List Char)
  | [] => [[]]
  | c :: t =>
    match splitOnChar sep t with
    | [] => if c = sep then [[], []] else [[c]]
    | h :: r => if c = sep then [] :: h :: r else (c :: h) :: r

/-- Join with a single-character separator; inverse of `splitOnChar`. -/
def joinChar (sep : Char) (l : List (List Char)) : List Char :=
  List.intercalate [sep] l

theorem splitOnChar_ne_nil (sep : Char) (s : List Char) :
    splitOnChar sep s ≠ [] := by
  cases s with
  | nil => simp [splitOnChar]
  | cons c t =>
    simp only [splitOnChar]
    rcases splitOnChar sep t with _ | ⟨h, r⟩ <;> dsimp only <;> split <;> simp

theorem joinChar_splitOnChar (sep : Char) (s : List Char) :
    joinChar sep (splitOnChar sep s) = s := by
  induction s with
  | nil => simp [splitOnChar, joinChar, List.intercalate]
  | cons c t ih =>
    simp only [splitOnChar]
    cases h : splitOnChar sep t with
    | nil => exact absurd h (splitOnChar_ne_nil sep t)
    | cons hd r =>
      rw [h] at ih
      by_cases hc : c = sep
      · subst hc
        simp only [if_pos rfl, joinChar, List.intercalate] at *
        simpa [List.intersperse] using ih
      · simp only [if_neg hc, joinChar, List.intercalate] at *
        cases r <;> simpa [List.intersperse] using ih

/-- A decimal-digit character. -/
def isDigitChar (c : Char) : Bool := '0' ≤ c && c ≤ '9'

/-- All characters are decimal digits. -/
def allDigits (s : List Char) : Bool := s.all isDigitChar

/-- A digit string with no redundant leading zero (`"0"`, or not starting
with `'0'`): exactly the strings produced by `natToChars`. -/
def canonicalDigits (s : List Char) : Bool :=
  allDigits s && (s = ['0'] || s.head? ≠ some '0') && s ≠ []

theorem toNat_digitChar (d : Nat) (h : d < 10) :
    (Char.ofNat (48 + d)).toNat = 48 + d := by
  interval_cases d <;> decide

theorem isDigitChar_digitChar (d : Nat) (h : d < 10) :
    isDigitChar (Char.ofNat (48 + d)) = true := by
  interval_cases d <;> decide

theorem digits_map_char (n : Nat) :
    ((Nat.digits 10 n).map (fun d => Char.ofNat (48 + d))).map
      (fun c => c.toNat - 48) = Nat.digits 10 n := by
  rw [List.map_map]
  conv_rhs => rw [← List.map_id (Nat.digits 10 n)]
  apply List.map_congr_left
  intro d hd
  have h10 : d < 10 := Nat.digits_lt_base (by norm_num) hd
  simp only [Function.comp_apply, id_eq]
  rw [toNat_digitChar d h10]
  omega

theorem charsToNat_natToChars (n : Nat) : charsToNat (natToChars n) = n := by
  by_cases hn : n = 0
  · subst hn; simp [natToChars, charsToNat, Nat.ofDigits]
  · rw [natToChars_eq_digits]
    simp only [if_neg hn, charsToNat, List.map_reverse, List.reverse_reverse]
    rw [digits_map_char n, Nat.ofDigits_digits]

theorem natToChars_ne_nil (n : Nat) : natToChars n ≠ [] := by
  by_cases hn : n = 0
  · subst hn; simp [natToChars]
  · rw [natToChars_eq_digits]
    simp only [if_neg hn]
    intro h
    rw [List.reverse_eq_nil_iff, List.map_eq_nil_iff,
      Nat.digits_eq_nil_iff_eq_zero] at h
    exact hn h

theorem allDigits_natToChars (n : Nat) : allDigits (natToChars n) = true := by
  by_cases hn : n = 0
  · subst hn; decide
  · rw [natToChars_eq_digits]
    simp only [if_neg hn, allDigits, List.all_eq_true,
      List.mem_reverse, List.mem_map]
    rintro c ⟨d, hd, rfl⟩
    exact isDigitChar_digitChar d (Nat.digits_lt_base (by norm_num) hd)

theorem canonicalDigits_natToChars (n : Nat) :
    canonicalDigits (natToChars n) = true := by
  by_cases hn : n = 0
  · subst hn; decide
  · simp only [canonicalDigits, Bool.and_eq_true, allDigits_natToChars,
      Bool.or_eq_true, decide_eq_true_eq, true_and]
    refine ⟨Or.inr ?_, by simpa using natToChars_ne_nil n⟩
    rw [natToChars_eq_digits]
    simp only [if_neg hn]
    intro hhead
    have hL : Nat.digits 10 n ≠ [] := Nat.digits_ne_nil_iff_ne_zero.mpr hn
    have hdz : (Nat.digits 10 n).getLast hL ≠ 0 :=
      Nat.getLast_digit_ne_zero 10 hn
    have h10 : (Nat.digits 10 n).getLast hL < 10 :=
      Nat.digits_lt_base (by norm_num) (List.getLast_mem hL)
    rw [List.head?_reverse, List.getLast?_map,
      List.getLast?_eq_getLast _ hL] at hhead
    simp only [Option.map_some', Option.some.injEq] at hhead
    have := congrArg Char.toNat hhead
    rw [toNat_digitChar _ h10] at this
    have : (Nat.digits 10 n).getLast hL = 0 := by
      have h0 : ('0' : Char).toNat = 48 := by decide
      omega
    exact hdz this

theorem isDigitChar_toNat {c : Char} (h : isDigitChar c = true) :
    48 ≤ c.toNat ∧ c.toNat ≤ 57 := by
  simp only [isDigitChar, Bool.and_eq_true, decide_eq_true_eq, Char.le_def] at h
  exact ⟨h.1, h.2⟩

theorem toNat_eq_48_iff {c : Char} (h : isDigitChar c = true) :
    c.toNat = 48 ↔ c = '0' := by
  constructor
  · intro h48
    have := Char.ofNat_toNat c
    rw [h48] at this
    exact this.symm.trans rfl
  · rintro rfl; rfl

theorem charsToNat_lt (s : List Char) (h : allDigits s = true) :
    charsToNat s < 10 ^ s.length := by
  have : s.length = ((s.map (fun c => c.toNat - 48)).reverse).length := by simp
  rw [this]
  apply Nat.ofDigits_lt_base_pow_length (by norm_num)
  intro x hx
  simp only [List.mem_reverse, List.mem_map] at hx
  obtain ⟨c, hc, rfl⟩ := hx
  have h2 := isDigitChar_toNat (by simp only [allDigits, List.all_eq_true] at h; exact h c hc)
  have h3 : c.toNat - 48 < 10 := by omega
  simpa using h3

theorem natToChars_length_le (n k : Nat) (h : n < 10 ^ k) (hk : 1 ≤ k) :
    (natToChars n).length ≤ k := by
  by_cases hn : n = 0
  · subst hn; simpa [natToChars] using hk
  · rw [natToChars_eq_digits]
    simp only [if_neg hn, List.length_reverse, List.length_map]
    rw [Nat.digits_len 10 n (by norm_num) hn]
    have := Nat.log_lt_of_lt_pow hn h
    omega

theorem natToChars_charsToNat (s : List Char) (h : canonicalDigits s = true) :
    natToChars (charsToNat s) = s := by
  simp only [canonicalDigits, Bool.and_eq_true, Bool.or_eq_true,
    decide_eq_true_eq, ne_eq] at h
  obtain ⟨⟨hdig, hcanon⟩, hne⟩ := h
  rcases hcanon with rfl | hhead
  · decide
  · have hmap : ∀ c ∈ s, c.toNat - 48 < 10 := by
      intro c hc
      have := isDigitChar_toNat
        (by simp only [allDigits, List.all_eq_true] at hdig; exact hdig c hc)
      omega
    set L := (s.map (fun c => c.toNat - 48)).reverse with hL
    have hLne : L ≠ [] := by
      simp only [hL, ne_eq, List.reverse_eq_nil_iff, List.map_eq_nil_iff]
      exact hne
    have hLlt : ∀ l ∈ L, l < 10 := by
      intro l hl
      simp only [hL, List.mem_reverse, List.mem_map] at hl
      obtain ⟨c, hc, rfl⟩ := hl
      exact hmap c hc
    have hLlast : ∀ (h' : L ≠ []), L.getLast h' ≠ 0 := by
      intro h'
      rcases s with _ | ⟨c₀, t⟩
      · exact absurd rfl hne
      · have hgl : L.getLast h' = c₀.toNat - 48 := by
          simp only [hL]
          rw [List.getLast_reverse]
          simp
        rw [hgl]
        have hc₀ : isDigitChar c₀ = true := by
          simp only [allDigits, List.all_eq_true] at hdig
          exact hdig c₀ (List.mem_cons_self c₀ t)
        have h48 := isDigitChar_toNat hc₀
        have : c₀.toNat ≠ 48 := by
          intro hc
          exact hhead (by rw [(toNat_eq_48_iff hc₀).mp hc]; rfl)
        omega
    have hdig10 : Nat.digits 10 (charsToNat s) = L :=
      Nat.digits_ofDigits 10 (by norm_num) L hLlt hLlast
    have hnz : charsToNat s ≠ 0 := by
      intro h0
      rw [h0] at hdig10
      simp only [Nat.digits_zero] at hdig10
      exact hLne hdig10.symm
    rw [natToChars_eq_digits]
    simp only [if_neg hnz, hdig10, hL]
    rw [List.map_reverse, List.reverse_reverse, List.map_map]
    conv_rhs => rw [← List.map_id s]
    apply List.map_congr_left
    intro c hc
    have h48 := isDigitChar_toNat
      (by simp only [allDigits, List.all_eq_true] at hdig; exact hdig c hc)
    simp only [Function.comp_apply, id_eq]
    have : 48 + (c.toNat - 48) = c.toNat := by omega
    rw [this, Char.ofNat_toNat]

theorem charsToNat_cons_zero (t : List Char) :
    charsToNat ('0' :: t) = charsToNat t := by
  simp only [charsToNat, List.map_cons, List.reverse_cons]
  rw [Nat.ofDigits_append]
  have h0 : ('0' : Char).toNat - 48 = 0 := by decide
  simp [h0, Nat.ofDigits]

theorem padStart_self (c : Char) (s : List Char) :
    padStart s.length c s = s := by
  simp [padStart]

theorem padStart_natToChars (s : List Char) (hd : allDigits s = true)
    (hs : s ≠ []) : padStart s.length '0' (natToChars (charsToNat s)) = s := by
  induction s with
  | nil => exact absurd rfl hs
  | cons c t ih =>
    by_cases hc : c = '0'
    · subst hc
      rcases t with _ | ⟨c', t'⟩
      · decide
      · have hdt : allDigits (c' :: t') = true := by
          simp only [allDigits, List.all_eq_true] at hd ⊢
          exact fun x hx => hd x (List.mem_cons_of_mem _ hx)
        have iht := ih hdt (by simp)
        rw [charsToNat_cons_zero]
        have hlen : (natToChars (charsToNat (c' :: t'))).length ≤
            (c' :: t').length := by
          apply natToChars_length_le _ _ (charsToNat_lt _ hdt)
          simp
        simp only [padStart, List.length_cons] at iht ⊢
        have hsub : t'.length + 1 + 1 - (natToChars (charsToNat (c' :: t'))).length
            = (t'.length + 1 - (natToChars (charsToNat (c' :: t'))).length) + 1 := by
          simp only [List.length_cons] at hlen
          omega
        rw [hsub, List.replicate_succ, List.cons_append, iht]
    · have hcanon : canonicalDigits (c :: t) = true := by
        simp only [canonicalDigits, Bool.and_eq_true, Bool.or_eq_true,
          decide_eq_true_eq, ne_eq]
        refine ⟨⟨hd, Or.inr ?_⟩, by simp⟩
        simp only [List.head?_cons, Option.some.injEq]
        exact hc
      rw [natToChars_charsToNat _ hcanon, padStart_self]

/-! ## JavaScript `Number(...)` classification

`getModifiers` classifies a segment with `isNaN(Number(element))`.  The
segments reaching it consist of characters `[0-9A-Za-z_-]` (SemVer
pre-release identifiers resp. CalVer modifier words), so the relevant
`Number` grammar is: the empty string (value 0), an optional minus followed
by either `Infinity` or digits with an optional exponent part, or an
unsigned `0x`/`0b`/`0o` literal.  (`+` signs and decimal points cannot
occur in these segments.) -/

/-- Hexadecimal digit. -/
def isHexDigit (c : Char) : Bool :=
  isDigitChar c || ('a' ≤ c && c ≤ 'f') || ('A' ≤ c && c ≤ 'F')

/-- Exponent tail after `e`/`E`: optional minus, then nonempty digits. -/
def decExpTail (u : List Char) : Bool :=
  match u with
  | '-' :: ds => ds ≠ [] && allDigits ds
  | ds => ds ≠ [] && allDigits ds

/-- Unsigned decimal literal with optional exponent: `\d+([eE]-?\d+)?`. -/
def decimalNumeric (t : List Char) : Bool :=
  let ds := t.takeWhile isDigitChar
  let rest := t.dropWhile isDigitChar
  decide (ds ≠ []) &&
    (rest.isEmpty ||
      ((rest.head? = some 'e' || rest.head? = some 'E') && decExpTail rest.tail))

/-- Whether JavaScript `Number(s)` yields a non-NaN value, for segments over
`[0-9A-Za-z_-]` (`Number("") = 0`, so `[]` is numeric). -/
def jsIsNumeric (s : List Char) : Bool :=
  if s = [] then true
  else if s = "Infinity".toList || s = "-Infinity".toList then true
  else
    match s with
    | '0' :: x :: rest =>
      if x = 'x' || x = 'X' then decide (rest ≠ []) && rest.all isHexDigit
      else if x = 'b' || x = 'B' then
        decide (rest ≠ []) && rest.all (fun c => c = '0' || c = '1')
      else if x = 'o' || x = 'O' then
        decide (rest ≠ []) && rest.all (fun c => '0' ≤ c && c ≤ '7')
      else decimalNumeric s
    | '-' :: t => decimalNumeric t
    | _ => decimalNumeric s

/-- Hexadecimal digit value. -/
def hexVal (c : Char) : Nat :=
  if isDigitChar c then c.toNat - 48
  else if 'a' ≤ c && c ≤ 'f' then c.toNat - 87
  else c.toNat - 55

/-- Value of a digit string in base `b` under digit valuation `f`. -/
def charsToNatBase (b : Nat) (f : Char → Nat) (s : List Char) : Nat :=
  Nat.ofDigits b ((s.map f).reverse)

/-- Value of an unsigned decimal literal with optional exponent.  A negative
exponent whose power does not divide the mantissa denotes a fractional
IEEE-754 double, which is outside the integer model; such values (and only
such values) are mapped to 0 here, and every theorem in this file keeps its
inputs away from them. -/
def decimalVal (t : List Char) : Int :=
  let ds := t.takeWhile isDigitChar
  let rest := t.dropWhile isDigitChar
  let m : Int := (charsToNat ds : Int)
  match rest with
  | [] => m
  | _ :: u =>
    match u with
    | '-' :: es =>
      if ((10 : Int) ^ charsToNat es) ∣ m then m / (10 : Int) ^ charsToNat es
      else 0
    | es => m * (10 : Int) ^ charsToNat es

/-- JavaScript `Number(s)` as an exact integer, for segments over
`[0-9A-Za-z_-]`.  `Infinity` is not an integer; it is mapped to 0 (flagged
modelling gap, see `decimalVal`; no theorem below depends on it). -/
def jsNumberVal (s : List Char) : Int :=
  if s = [] then 0
  else if s = "Infinity".toList || s = "-Infinity".toList then 0
  else
    match s with
    | '0' :: x :: rest =>
      if x = 'x' || x = 'X' then (charsToNatBase 16 hexVal rest : Int)
      else if x = 'b' || x = 'B' then
        (charsToNatBase 2 (fun c => c.toNat - 48) rest : Int)
      else if x = 'o' || x = 'O' then
        (charsToNatBase 8 (fun c => c.toNat - 48) rest : Int)
      else decimalVal s
    | '-' :: t => - decimalVal t
    | _ => decimalVal s

/-- Modelled from the spec: the source compares identifier strings with
`String.prototype.localeCompare`, whose collation is supplied by the host's
ICU locale data — an external collaborator outside this repository.  The
spec's non-goals state "no locale-aware string collation beyond simple
ordinal comparison", so it is modelled as ordinal (code-unit) comparison,
normalised to -1/0/1. -/
def localeCompare : List Char → List Char → Int
  | [], [] => 0
  | [], _ :: _ => -1
  | _ :: _, [] => 1
  | a :: as, b :: bs =>
    if a.toNat < b.toNat then -1
    else if b.toNat < a.toNat then 1
    else localeCompare as bs

/-! ## `src/src/modifiers.ts` -/

/-- A pre-release modifier (`modifiers.ts`): optional identifier, numeric
value, and the digit width of the parsed value (for documentation of the
original width; `length` in the source). -/
structure Modifier where
  identifier : Option (List Char)
  value : Int
  length : Nat
deriving DecidableEq, Repr

/-- Loop body of `getModifiers`: walks the dot-separated segments carrying
the currently open identifier-only modifier (`nextModifier`). -/
def getModifiersAux : List (List Char) → Option Modifier → List Modifier
  | [], pending =>
    match pending with
    | some m => [m]
    | none => []
  | e :: rest, pending =>
    if jsIsNumeric e = false then
      (match pending with
       | some m => [m]
       | none => []) ++ getModifiersAux rest (some ⟨some e, 0, 0⟩)
    else
      match pending with
      | none => ⟨none, jsNumberVal e, e.length⟩ :: getModifiersAux rest none
      | some m => ⟨m.identifier, jsNumberVal e, e.length⟩ :: getModifiersAux rest none

/-- `getModifiers` (`modifiers.ts`): parses an optional dot-separated
modifier string into a modifier chain (`value ? value.split(".") : []`
makes both `undefined` and `""` yield the empty chain). -/
def getModifiers (value : Option (List Char)) : List Modifier :=
  getModifiersAux
    (match value with
     | none => []
     | some v => if v = [] then [] else splitOnChar '.' v)
    none

/-- `incrementModifier` (`modifiers.ts`): bumps the first modifier with the
given identifier, or appends `{identifier, value: 1, length: 1}`. -/
def incrementModifier : List Modifier → List Char → List Modifier
  | [], identifier => [⟨some identifier, 1, 1⟩]
  | m :: rest, identifier =>
    if m.identifier = some identifier then
      { m with value := m.value + 1,
               length := (intToChars (m.value + 1)).length } :: rest
    else m :: incrementModifier rest identifier

/-- Element-wise loop of `compareModifiers` (runs only when the lengths are
equal, so the nil cases are simultaneous). -/
def compareModifiersLoop : List Modifier → List Modifier → Int
  | ma :: as, mb :: bs =>
    let idC := localeCompare (ma.identifier.getD []) (mb.identifier.getD [])
    if idC ≠ 0 then idC
    else if ma.value = mb.value then compareModifiersLoop as bs
    else if ma.value > mb.value then 1 else -1
  | _, _ => 0

/-- `compareModifiers` (`modifiers.ts`): a strictly shorter chain is
greater; equal-length chains compare element-wise by identifier
(missing treated as `""`), then by value. -/
def compareModifiers (a b : List Modifier) : Int :=
  if a.length < b.length then 1
  else if a.length > b.length then -1
  else compareModifiersLoop a b

/-- Rendering of one modifier inside `modifiersToString` (note the JS
truthiness test on `modifier.identifier`: an empty identifier renders as a
bare value). -/
def renderModifier (m : Modifier) : List Char :=
  match m.identifier with
  | some id =>
    if id ≠ [] then
      (if m.length > 0 then id ++ '.' :: intToChars m.value else id)
    else intToChars m.value
  | none => intToChars m.value

/-- `modifiersToString` (`modifiers.ts`). -/
def modifiersToString (modifiers : List Modifier) : List Char :=
  if modifiers = [] then []
  else '-' :: joinChar '.' (modifiers.map renderModifier)

/-! ## `src/src/utils.ts` (`src/unnamed/part_001`) -/

/-- Character class `[a-zA-Z-]` of `getKeyValuePair`'s key. -/
def isKeyChar (c : Char) : Bool :=
  ('a' ≤ c && c ≤ 'z') || ('A' ≤ c && c ≤ 'Z') || c = '-'

/-- `getKeyValuePair` (`utils.ts`): matches `^([a-zA-Z-]+)[.]([0-9]+)$`.
The key class excludes `.`, so the greedy regex split is the
`takeWhile`/`dropWhile` split. -/
def getKeyValuePair (value : Option (List Char)) : Option (List Char × Nat) :=
  match value with
  | none => none
  | some v =>
    let key := v.takeWhile isKeyChar
    let rest := v.dropWhile isKeyChar
    match rest with
    | '.' :: ds =>
      if key ≠ [] ∧ ds ≠ [] ∧ allDigits ds = true then some (key, charsToNat ds)
      else none
    | _ => none

/-! ## `src/src/semver.ts`

The anchored `SEMVER_REGEX` is deterministic: each core number is
`0|[1-9]\d*` (committing to `0` cannot lose a match, since a digit can
never follow a matched core number), the pre-release part runs from a `-`
after the patch number up to the first `+` (neither part's character class
contains `+`), and each dot-separated pre-release identifier is
`0|[1-9]\d*|\d*[a-zA-Z-][0-9a-zA-Z-]*`, i.e. a nonempty `[0-9a-zA-Z-]`
word that, when it is all digits, has no redundant leading zero. -/

/-- The character class `[0-9a-zA-Z-]` of pre-release/build identifiers. -/
def isSemVerIdentChar (c : Char) : Bool :=
  isDigitChar c || ('a' ≤ c && c ≤ 'z') || ('A' ≤ c && c ≤ 'Z') || c = '-'

/-- One pre-release identifier: `0|[1-9]\d*|\d*[a-zA-Z-][0-9a-zA-Z-]*`. -/
def validPreIdent (seg : List Char) : Bool :=
  decide (seg ≠ []) && seg.all isSemVerIdentChar &&
    (!allDigits seg || canonicalDigits seg)

/-- One build identifier: `[0-9a-zA-Z-]+`. -/
def validBuildSeg (seg : List Char) : Bool :=
  decide (seg ≠ []) && seg.all isSemVerIdentChar

/-- The dot-separated pre-release part. -/
def validPre (pre : List Char) : Bool :=
  (splitOnChar '.' pre).all validPreIdent

/-- The dot-separated build-metadata part. -/
def validBuild (b : List Char) : Bool :=
  (splitOnChar '.' b).all validBuildSeg

/-- Parse `0|[1-9]\d*` at the head of the input, returning the value and
the remainder. -/
def parseNumCore : List Char → Option (Nat × List Char)
  | [] => none
  | c :: rest =>
    if c = '0' then some (0, rest)
    else if isDigitChar c then
      some (charsToNat (c :: rest.takeWhile isDigitChar),
        rest.dropWhile isDigitChar)
    else none

/-- Expect a single character. -/
def expectChar (c : Char) : List Char → Option (List Char)
  | [] => none
  | x :: rest => if x = c then some rest else none

/-- Parse the optional `-prerelease` / `+build` tail of a SemVer string,
returning the raw captured strings. -/
def parseSemTail : List Char → Option (Option (List Char) × Option (List Char))
  | [] => some (none, none)
  | '+' :: b => if validBuild b then some (none, some b) else none
  | '-' :: rest =>
    let pre := rest.takeWhile (fun c => c ≠ '+')
    let after := rest.drop pre.length
    if validPre pre then
      match after with
      | [] => some (some pre, none)
      | '+' :: b => if validBuild b then some (some pre, some b) else none
      | _ => none
    else none
  | _ => none

/-- SemVer increment kinds (`SemVerIncrement`). -/
inductive SemVerIncrement
  | MAJOR | MINOR | PATCH | PRERELEASE
deriving DecidableEq, Repr

/-- `SemVer` (`src/src/semver.ts`).  The source's `prefix` field is named
`pfx` here. -/
structure SemVer where
  pfx : Option (List Char)
  major : Nat
  minor : Nat
  patch : Nat
  preReleases : List Modifier
  build : Option (List Char)
deriving DecidableEq, Repr

namespace SemVer

/-- `SemVer.fromString`: strips the prefix when given, matches
`SEMVER_REGEX`, and parses the pre-release group with `getModifiers`. -/
def fromString (version : List Char) (pfx : Option (List Char)) :
    Option SemVer := do
  let v ←
    match pfx with
    | none => some version
    | some p =>
      if p.isPrefixOf version then some (version.drop p.length) else none
  let (major, r1) ← parseNumCore v
  let r2 ← expectChar '.' r1
  let (minor, r3) ← parseNumCore r2
  let r4 ← expectChar '.' r3
  let (patch, r5) ← parseNumCore r4
  let (pre, build) ← parseSemTail r5
  some ⟨pfx, major, minor, patch, getModifiers pre, build⟩

/-- `SemVer.increment` (`modifier` is the optional second argument of the
source method, defaulting to `"rc"`). -/
def increment (v : SemVer) (type : SemVerIncrement)
    (modifier : Option (List Char)) : SemVer :=
  match type with
  | .PRERELEASE =>
    { v with
      preReleases := incrementModifier v.preReleases (modifier.getD "rc".toList),
      build := none }
  | .MAJOR => ⟨v.pfx, v.major + 1, 0, 0, [], none⟩
  | .MINOR => ⟨v.pfx, v.major, v.minor + 1, 0, [], none⟩
  | .PATCH => ⟨v.pfx, v.major, v.minor, v.patch + 1, [], none⟩

/-- `SemVer.compareTo`: major, minor, patch, then the pre-release chains;
`build` is never read. -/
def compareTo (a b : SemVer) : Int :=
  if a.major ≠ b.major then (if a.major > b.major then 1 else -1)
  else if a.minor ≠ b.minor then (if a.minor > b.minor then 1 else -1)
  else if a.patch ≠ b.patch then (if a.patch > b.patch then 1 else -1)
  else compareModifiers a.preReleases b.preReleases

/-- `SemVer.isEqualTo`. -/
def isEqualTo (a b : SemVer) : Bool := a.compareTo b = 0

/-- `SemVer.isGreaterThan`. -/
def isGreaterThan (a b : SemVer) : Bool := a.compareTo b = 1

/-- `SemVer.isLessThan`. -/
def isLessThan (a b : SemVer) : Bool := a.compareTo b = -1

/-- `SemVer.toString` (note the JS truthiness test on `this.build`). -/
def toString (v : SemVer) : List Char :=
  let buildStr : List Char :=
    match v.build with
    | some b => if b ≠ [] then '+' :: b else []
    | none => []
  (v.pfx.getD []) ++ natToChars v.major ++ '.' :: natToChars v.minor ++
    '.' :: natToChars v.patch ++ modifiersToString v.preReleases ++ buildStr

end SemVer

/-! ## CalVer common: tokens, formats, clock -/

/-- `CalVerFormat` tokens.  `0Y`, `0M`, `0W`, `0D` are spelled `zeroY`,
`zeroM`, `zeroW`, `zeroD` (not valid Lean identifiers otherwise). -/
inductive CalToken
  | YYYY | YY | zeroY | MM | zeroM | WW | zeroW | DD | zeroD
  | MAJOR | MINOR | MICRO
deriving DecidableEq, Repr

/-- The template spelling of a token (`[A-Z0]+` segment). -/
def CalToken.spelling : CalToken → List Char
  | .YYYY => "YYYY".toList
  | .YY => "YY".toList
  | .zeroY => "0Y".toList
  | .MM => "MM".toList
  | .zeroM => "0M".toList
  | .WW => "WW".toList
  | .zeroW => "0W".toList
  | .DD => "DD".toList
  | .zeroD => "0D".toList
  | .MAJOR => "MAJOR".toList
  | .MINOR => "MINOR".toList
  | .MICRO => "MICRO".toList

/-- Is the token one of `MAJOR`/`MINOR`/`MICRO`? -/
def CalToken.isCore (t : CalToken) : Bool :=
  t = .MAJOR || t = .MINOR || t = .MICRO

/-- `IFormat` without the derived `regex` field (the regex is a function of
the three tokens; parsing against it is modelled separately). -/
structure Format where
  major : CalToken
  minor : CalToken
  micro : Option CalToken
deriving DecidableEq, Repr

/-- The external clock collaborator (spec §1/§6): `month` is JavaScript
`getMonth()` (0-based), `date` is `getDate()` (day of month), `week` is
`getISO8601WeekNumber()`. -/
structure Clock where
  fullYear : Nat
  month : Nat
  date : Nat
  week : Nat
deriving DecidableEq, Repr

/-- CalVer increment kinds (`CalVerIncrement`). -/
inductive CalVerIncrement
  | CALENDAR | MAJOR | MINOR | MICRO | MODIFIER
deriving DecidableEq, Repr

/-- Errors thrown by the CalVer engine. -/
inductive CalVerErr
  | tokenNotInFormat
  | cannotIncrementModifier
  | incompatibleFormats
deriving DecidableEq, Repr

/-- How many of the format's 2–3 slots carry the given token
(`Object.keys(this.format).filter(key => this.format[key] === ...)`; the
`regex` key never equals a token string). -/
def countToken (f : Format) (t : CalToken) : Nat :=
  (if f.major = t then 1 else 0) + (if f.minor = t then 1 else 0) +
    (match f.micro with
     | some m => if m = t then 1 else 0
     | none => 0)

/-- `updateCalendar` (`calver.ts`): recompute a slot bound to a calendar
token from the clock; `undefined` for an absent slot or a core token.  The
`+1` on the day mirrors `new Date().getDate() + 1` in the source. -/
def updateCalendar (clock : Clock) : Option CalToken → Option Nat
  | none => none
  | some t =>
    if t.isCore then none
    else if t = .YYYY || t = .YY || t = .zeroY then some clock.fullYear
    else if t = .MM || t = .zeroM then some (clock.month + 1)
    else if t = .WW || t = .zeroW then some clock.week
    else some (clock.date + 1)

/-- `formatVersionCore` (`calver.ts`): per-token rendering of a stored slot
value (`takeLast` is the `substring(length - k)` of the source). -/
def formatVersionCore (value : Nat) (format : CalToken) : List Char :=
  if format.isCore then natToChars value
  else if format = .YYYY then padStart 4 '0' (natToChars value)
  else if format = .zeroY then padStart 3 '0' (takeLast 3 (natToChars value))
  else if format = .zeroM || format = .zeroW || format = .zeroD then
    padStart 2 '0' (takeLast 2 (natToChars value))
  else takeLast 2 (natToChars value)

/-- `isFormatIdentical` (`calver.ts`): the three tokens agree, including
presence/absence of the micro token. -/
def isFormatIdentical (a b : Format) : Bool :=
  a.major = b.major && a.minor = b.minor && a.micro = b.micro

/-! ## `src/src/calver.ts` — CalVer with a single `key.value` modifier -/

namespace Calver

/-- `CalVer` (`src/src/calver.ts`): the modifier is one optional string.
The source's `prefix` field is named `pfx`.  `micro` is `none` when absent
(the source stores `NaN` in the one reachable such state — parsing under a
2-token format — and `NaN` is observationally equal to an absent micro in
every subsequent operation). -/
structure CalVer where
  pfx : Option (List Char)
  major : Nat
  minor : Nat
  micro : Option Nat
  modifier : Option (List Char)
  format : Format
deriving DecidableEq, Repr

/-- The object branch of the `CalVer` constructor:
`major/minor` default to 0, `micro` defaults to 0 exactly when the format
has a micro token, `prefix` falls back to the third constructor argument
(always absent at the call sites modelled here, so it is dropped). -/
def construct (format : Format) (vpfx : Option (List Char))
    (vmajor vminor vmicro : Option Nat) (vmodifier : Option (List Char)) :
    CalVer :=
  { pfx := vpfx
    major := vmajor.getD 0
    minor := vminor.getD 0
    micro :=
      match vmicro with
      | some m => some m
      | none => if format.micro.isSome then some 0 else none
    modifier := vmodifier
    format := format }

/-- `CalVer.incrementModifier` (private): `"build.1"` when no modifier is
present, `key.(value+1)` when the modifier parses as `key.value`, an error
otherwise. -/
def incrementModifier (v : CalVer) : Except CalVerErr (List Char) :=
  match v.modifier with
  | none => .ok "build.1".toList
  | some m =>
    match getKeyValuePair (some m) with
    | some (k, value) => .ok (k ++ '.' :: natToChars (value + 1))
    | none => .error .cannotIncrementModifier

/-- Modifier part of `CalVer.compareTo`: presence first, then parsed
`key.value` pairs (key by `localeCompare`, then value), falling back to
`localeCompare` on the raw strings when either side does not parse. -/
def compareModifierStrings (a b : Option (List Char)) : Int :=
  match a, b with
  | some _, none => 1
  | none, some _ => -1
  | none, none => 0
  | some am, some bm =>
    match getKeyValuePair (some am), getKeyValuePair (some bm) with
    | some (ak, av), some (bk, bv) =>
      if ak ≠ bk then localeCompare ak bk
      else if av > bv then 1
      else if av < bv then -1
      else 0
    | _, _ => localeCompare am bm

/-- Value part of `CalVer.compareTo` (after the format check): major,
minor, micro (only when both are present), then the modifier strings. -/
def compareToVal (a b : CalVer) : Int :=
  if a.major > b.major then 1
  else if a.major < b.major then -1
  else if a.minor > b.minor then 1
  else if a.minor < b.minor then -1
  else
    match a.micro, b.micro with
    | some am, some bm =>
      if am > bm then 1
      else if am < bm then -1
      else compareModifierStrings a.modifier b.modifier
    | _, _ => compareModifierStrings a.modifier b.modifier

/-- `CalVer.compareTo`: throws on non-identical formats. -/
def compareTo (a b : CalVer) : Except CalVerErr Int :=
  if ¬ isFormatIdentical a.format b.format then .error .incompatibleFormats
  else .ok (compareToVal a b)

/-- `CalVer.isEqualTo`. -/
def isEqualTo (a b : CalVer) : Except CalVerErr Bool :=
  (compareTo a b).map (fun c => c = 0)

/-- `CalVer.isGreaterThan`. -/
def isGreaterThan (a b : CalVer) : Except CalVerErr Bool :=
  (compareTo a b).map (fun c => c = 1)

/-- `CalVer.isLessThan`. -/
def isLessThan (a b : CalVer) : Except CalVerErr Bool :=
  (compareTo a b).map (fun c => c = -1)

/-- `CalVer.toString` (string-modifier variant: the modifier is appended
verbatim after `-` whenever it is present). -/
def toString (v : CalVer) : List Char :=
  (v.pfx.getD []) ++
    formatVersionCore v.major v.format.major ++
    '.' :: formatVersionCore v.minor v.format.minor ++
    (match v.micro, v.format.micro with
     | some m, some mt => '.' :: formatVersionCore m mt
     | _, _ => []) ++
    (match v.modifier with
     | some m => '-' :: m
     | none => [])

/-- One step of the CALENDAR reset loop: zero the slot carrying the token
when exactly one slot does. -/
def setSlotZero (v : CalVer) (t : CalToken) : CalVer :=
  if countToken v.format t ≠ 1 then v
  else if v.format.major = t then { v with major := 0 }
  else if v.format.minor = t then { v with minor := 0 }
  else { v with micro := some 0 }

/-- `CalVer.increment` (`calver.ts`), with the clock made explicit. -/
def increment (clock : Clock) (v : CalVer) (type : CalVerIncrement) :
    Except CalVerErr CalVer :=
  match type with
  | .CALENDAR =>
    let newVersion := construct v.format v.pfx
      (some ((updateCalendar clock (some v.format.major)).getD v.major))
      (some ((updateCalendar clock (some v.format.minor)).getD v.minor))
      (match updateCalendar clock v.format.micro with
       | some u => some u
       | none => v.micro)
      v.modifier
    match isEqualTo newVersion v with
    | .error e => .error e
    | .ok true => do
      let m ← incrementModifier v
      .ok (construct v.format v.pfx (some v.major) (some v.minor) v.micro
        (some m))
    | .ok false =>
      let z := setSlotZero (setSlotZero (setSlotZero newVersion .MAJOR)
        .MINOR) .MICRO
      .ok { z with modifier := none }
  | .MAJOR | .MINOR | .MICRO =>
    let tok : CalToken :=
      match type with
      | .MINOR => .MINOR
      | .MICRO => .MICRO
      | _ => .MAJOR
    if countToken v.format tok ≠ 1 then .error .tokenNotInFormat
    else if v.format.major = tok then
      .ok (construct v.format none (some (v.major + 1)) none none none)
    else if v.format.minor = tok then
      .ok (construct v.format none (some v.major) (some (v.minor + 1)) none
        none)
    else
      .ok (construct v.format none (some v.major) (some v.minor)
        (some ((v.micro.getD 0) + 1)) none)
  | .MODIFIER => do
    let m ← incrementModifier v
    .ok (construct v.format v.pfx (some v.major) (some v.minor) v.micro
      (some m))

end Calver

/-! ## `formatFromString` (both `calver.ts` variants) -/

/-- Errors thrown by `formatFromString`: the template regex failing
(`Invalid CalVer format`), a repeated segment (`Duplicate CalVer format
element`), a segment outside the token set (`Unknown CalVer format
element`). -/
inductive FormatError
  | invalidFormat
  | duplicateElement (t : List Char)
  | unknownElement (t : List Char)
deriving DecidableEq, Repr

/-- Character class `[A-Z0]` of the template regex. -/
def isTemplateChar (c : Char) : Bool := ('A' ≤ c && c ≤ 'Z') || c = '0'

/-- The closed token set, by template spelling. -/
def tokenOfSpelling (s : List Char) : Option CalToken :=
  if s = "MAJOR".toList then some .MAJOR
  else if s = "MINOR".toList then some .MINOR
  else if s = "MICRO".toList then some .MICRO
  else if s = "YYYY".toList then some .YYYY
  else if s = "YY".toList then some .YY
  else if s = "0Y".toList then some .zeroY
  else if s = "0M".toList then some .zeroM
  else if s = "0W".toList then some .zeroW
  else if s = "0D".toList then some .zeroD
  else if s = "MM".toList then some .MM
  else if s = "WW".toList then some .WW
  else if s = "DD".toList then some .DD
  else none

/-- Loop body of `formatFromString`: the duplicate check runs before the
token classification. -/
def checkSeg (used : List (List Char)) (s : List Char) :
    Except FormatError CalToken :=
  if s ∈ used then .error (.duplicateElement s)
  else
    match tokenOfSpelling s with
    | some t => .ok t
    | none => .error (.unknownElement s)

/-- `formatFromString` (`calver.ts`): the anchored template regex
`^([A-Z0]+)\.([A-Z0]+)(\.([A-Z0]+))?$` (escaped dots, so it accepts
exactly 2 or 3 dot-separated nonempty `[A-Z0]` segments), then the
duplicate/unknown checks over `major`, `minor`, `micro` in order. -/
def formatFromString (format : List Char) : Except FormatError Format :=
  if ¬ ((splitOnChar '.' format).length = 2 ∨
      (splitOnChar '.' format).length = 3) then .error .invalidFormat
  else if ¬ (splitOnChar '.' format).all
      (fun s => decide (s ≠ []) && s.all isTemplateChar) then
    .error .invalidFormat
  else
    match splitOnChar '.' format with
    | [a, b] => do
      let t1 ← checkSeg [] a
      let t2 ← checkSeg [a] b
      .ok ⟨t1, t2, none⟩
    | [a, b, c] => do
      let t1 ← checkSeg [] a
      let t2 ← checkSeg [a] b
      let t3 ← checkSeg [a, b] c
      .ok ⟨t1, t2, some t3⟩
    | _ => .error .invalidFormat

/-! ## `src/unnamed/part_000` — CalVer with a modifier chain

Its generated parse regex is `^G₁.G₂(.G₃)?(-(?<modifier>[\w._]+))?$` where
each `Gᵢ` is a digit group whose width is fixed by the slot's token and the
joining dots are *unescaped* (they match any character).  The matcher below
reproduces the leftmost-greedy backtracking search of the regex engine:
group lengths are tried longest-first, and the first full match wins. -/

/-- Digit-count bounds (min, max) of a token's capture group; `none` means
unbounded (`\d+`). -/
def tokenBounds : CalToken → Nat × Option Nat
  | .MAJOR => (1, none)
  | .MINOR => (1, none)
  | .MICRO => (1, none)
  | .YYYY => (4, some 4)
  | .YY => (1, some 3)
  | .zeroY => (3, some 3)
  | .MM => (1, some 2)
  | .zeroM => (2, some 2)
  | .WW => (1, some 2)
  | .zeroW => (2, some 2)
  | .DD => (1, some 2)
  | .zeroD => (2, some 2)

/-- `\w` = `[A-Za-z0-9_]`. -/
def isWordChar (c : Char) : Bool :=
  isDigitChar c || ('a' ≤ c && c ≤ 'z') || ('A' ≤ c && c ≤ 'Z') || c = '_'

/-- Modifier class `[\w._]`. -/
def isModifierChar (c : Char) : Bool := isWordChar c || c = '.'

/-- The `(-(?<modifier>[\w._]+))?$` tail. -/
def parseModTail : List Char → Option (Option (List Char))
  | [] => some none
  | '-' :: rest =>
    if rest ≠ [] ∧ rest.all isModifierChar then some (some rest) else none
  | _ => none

/-- `[hi, hi-1, ..., lo]`. -/
def descRange (lo hi : Nat) : List Nat := (List.range' lo (hi + 1 - lo)).reverse

/-- First success of `f` along a list (the regex engine's backtracking
order). -/
def firstSome {α β : Type} (f : α → Option β) : List α → Option β
  | [] => none
  | x :: xs =>
    match f x with
    | some r => some r
    | none => firstSome f xs

/-- Match the last digit group (greedy) followed by the modifier tail. -/
def matchLast (b : Nat × Option Nat) (s : List Char) :
    Option (List Char × Option (List Char)) :=
  firstSome
    (fun k =>
      let g := s.take k
      if g.length = k ∧ allDigits g = true then
        match parseModTail (s.drop k) with
        | some m => some (g, m)
        | none => none
      else none)
    (descRange b.1 (b.2.getD s.length))

/-- Match a digit group (greedy), one arbitrary separator character (the
unescaped dot), then the final group. -/
def matchTwoGroups (b1 b2 : Nat × Option Nat) (s : List Char) :
    Option (List Char × List Char × Option (List Char)) :=
  firstSome
    (fun k =>
      let g := s.take k
      if g.length = k ∧ allDigits g = true then
        match s.drop k with
        | [] => none
        | _ :: rest =>
          match matchLast b2 rest with
          | some (g2, m) => some (g, g2, m)
          | none => none
      else none)
    (descRange b1.1 (b1.2.getD s.length))

/-- Match three digit groups separated by arbitrary characters, then the
modifier tail. -/
def matchThreeGroups (b1 b2 b3 : Nat × Option Nat) (s : List Char) :
    Option (List Char × List Char × List Char × Option (List Char)) :=
  firstSome
    (fun k =>
      let g := s.take k
      if g.length = k ∧ allDigits g = true then
        match s.drop k with
        | [] => none
        | _ :: rest =>
          match matchTwoGroups b2 b3 rest with
          | some (g2, g3, m) => some (g, g2, g3, m)
          | none => none
      else none)
    (descRange b1.1 (b1.2.getD s.length))

namespace CalverChain

/-- `CalVer` (`src/unnamed/part_000`): the modifier is a `Modifier` chain.
The source's `prefix` field is named `pfx`; an absent micro (the source's
`NaN` from `parseInt(undefined)` under a 2-token format) is `none`. -/
structure CalVer where
  pfx : Option (List Char)
  major : Nat
  minor : Nat
  micro : Option Nat
  modifiers : List Modifier
  format : Format
deriving DecidableEq, Repr

/-- The `CalVer` constructor of the chain variant (`version` object plus
`prefix` argument). -/
def construct (format : Format) (vpfx : Option (List Char))
    (vmajor vminor vmicro : Option Nat) (vmodifiers : Option (List Modifier)) :
    CalVer :=
  { pfx := vpfx
    major := vmajor.getD 0
    minor := vminor.getD 0
    micro :=
      match vmicro with
      | some m => some m
      | none => if format.micro.isSome then some 0 else none
    modifiers := vmodifiers.getD []
    format := format }

/-- `CalVer.fromString` (chain variant): strips the prefix, runs the
compiled format regex, and parses the captured groups. -/
def fromString (format : Format) (version : List Char)
    (pfx : Option (List Char)) : Option CalVer := do
  let v ←
    match pfx with
    | none => some version
    | some p =>
      if p.isPrefixOf version then some (version.drop p.length) else none
  match format.micro with
  | none =>
    match matchTwoGroups (tokenBounds format.major) (tokenBounds format.minor)
        v with
    | some (g1, g2, m) =>
      some (construct format pfx (some (charsToNat g1)) (some (charsToNat g2))
        none (some (getModifiers m)))
    | none => none
  | some t3 =>
    match matchThreeGroups (tokenBounds format.major)
        (tokenBounds format.minor) (tokenBounds t3) v with
    | some (g1, g2, g3, m) =>
      some (construct format pfx (some (charsToNat g1)) (some (charsToNat g2))
        (some (charsToNat g3)) (some (getModifiers m)))
    | none => none

/-- `CalVer.toString` (chain variant): the version core as in the string
variant, then `modifiersToString`. -/
def toString (v : CalVer) : List Char :=
  (v.pfx.getD []) ++
    formatVersionCore v.major v.format.major ++
    '.' :: formatVersionCore v.minor v.format.minor ++
    (match v.micro, v.format.micro with
     | some m, some mt => '.' :: formatVersionCore m mt
     | _, _ => []) ++
    modifiersToString v.modifiers

end CalverChain

/-! ## Comparison lemmas -/

theorem localeCompare_self (s : List Char) : localeCompare s s = 0 := by
  induction s with
  | nil => rfl
  | cons c t ih => simp [localeCompare, ih]

theorem localeCompare_mem (a b : List Char) :
    localeCompare a b = -1 ∨ localeCompare a b = 0 ∨ localeCompare a b = 1 := by
  induction a generalizing b with
  | nil => cases b <;> simp [localeCompare]
  | cons c t ih =>
    cases b with
    | nil => simp [localeCompare]
    | cons d u =>
      simp only [localeCompare]
      split_ifs <;> simp [ih u]

/-- Three-way comparison of naturals (claim-side helper). -/
def cmpNat (x y : Nat) : Int := if x > y then 1 else if x < y then -1 else 0

/-- Three-way comparison of integers (claim-side helper). -/
def cmpInt (x y : Int) : Int := if x > y then 1 else if x < y then -1 else 0

/-- Claim-side per-element comparison of two modifiers: identifier as
ordinal strings (missing identifier read as `""`), then numeric value. -/
def pairCmp (ma mb : Modifier) : Int :=
  let i := localeCompare (ma.identifier.getD []) (mb.identifier.getD [])
  if i ≠ 0 then i else cmpInt ma.value mb.value

/-- First non-zero comparison result decides. -/
def firstNonzero : List Int → Int
  | [] => 0
  | c :: rest => if c ≠ 0 then c else firstNonzero rest

/-- Claim-side reference definition of the chain comparison (C3): the
strictly shorter chain is greater; equal lengths compare pairwise, first
non-zero result deciding. -/
def compareChainsSpec (a b : List Modifier) : Int :=
  if a.length < b.length then 1
  else if b.length < a.length then -1
  else firstNonzero (List.zipWith pairCmp a b)

theorem compareModifiersLoop_eq_firstNonzero (a b : List Modifier) :
    compareModifiersLoop a b = firstNonzero (List.zipWith pairCmp a b) := by
  induction a generalizing b with
  | nil => cases b <;> rfl
  | cons ma as ih =>
    cases b with
    | nil => rfl
    | cons mb bs =>
      simp only [compareModifiersLoop, List.zipWith_cons_cons, firstNonzero,
        pairCmp]
      by_cases hid :
          localeCompare (ma.identifier.getD []) (mb.identifier.getD []) = 0
      · simp only [hid, if_neg (by simp : ¬(0 : Int) ≠ 0)]
        by_cases hv : ma.value = mb.value
        · simp [hv, cmpInt, ih bs]
        · simp only [if_neg hv, cmpInt]
          rcases lt_trichotomy ma.value mb.value with h | h | h
          · simp only [if_neg (by omega : ¬ma.value > mb.value),
              if_pos h]
            split_ifs <;> omega
          · exact absurd h hv
          · simp only [if_pos h]
            split_ifs <;> omega
      · simp [hid]

theorem compareModifiersLoop_self (a : List Modifier) :
    compareModifiersLoop a a = 0 := by
  induction a with
  | nil => rfl
  | cons m as ih =>
    simp [compareModifiersLoop, localeCompare_self, ih]

theorem compareModifiers_self (a : List Modifier) : compareModifiers a a = 0 := by
  simp [compareModifiers, compareModifiersLoop_self]

theorem compareModifiersLoop_mem (a b : List Modifier) :
    compareModifiersLoop a b = -1 ∨ compareModifiersLoop a b = 0 ∨
      compareModifiersLoop a b = 1 := by
  induction a generalizing b with
  | nil => cases b <;> simp [compareModifiersLoop]
  | cons ma as ih =>
    cases b with
    | nil => simp [compareModifiersLoop]
    | cons mb bs =>
      simp only [compareModifiersLoop]
      split_ifs with h1 h2 h3
      · exact localeCompare_mem _ _
      · exact ih bs
      · simp
      · simp

/-! ## C2 -/

/-- Claim-side (spec-shaped) SemVer comparison: major, then minor, then
patch numerically, ties broken by the pre-release chains; `build` does not
appear. -/
def compareToSpec (a b : SemVer) : Int :=
  if cmpNat a.major b.major ≠ 0 then cmpNat a.major b.major
  else if cmpNat a.minor b.minor ≠ 0 then cmpNat a.minor b.minor
  else if cmpNat a.patch b.patch ≠ 0 then cmpNat a.patch b.patch
  else compareModifiers a.preReleases b.preReleases

theorem cmpNat_self (x : Nat) : cmpNat x x = 0 := by simp [cmpNat]

theorem cmpNat_of_ne {x y : Nat} (h : x ≠ y) :
    cmpNat x y = if x > y then 1 else -1 := by
  unfold cmpNat
  split_ifs <;> omega

theorem cmpNat_ne_zero {x y : Nat} (h : x ≠ y) : cmpNat x y ≠ 0 := by
  rw [cmpNat_of_ne h]
  split_ifs <;> omega

theorem cmpNat_zero_of_eq {x y : Nat} (h : x = y) : cmpNat x y = 0 := by
  subst h; exact cmpNat_self x

/-- C2: `SemVer.compareTo` compares major, then minor, then patch
numerically, breaks ties with `compareModifiers` on the pre-release chains,
and the `build` field never influences the result; in particular two
versions differing only in `build` are `isEqualTo` each other. -/
theorem c2_semver_ordering_ignores_build :
    (∀ a b : SemVer, SemVer.compareTo a b = compareToSpec a b) ∧
    (∀ (a b : SemVer) (ba bb : Option (List Char)),
      SemVer.compareTo { a with build := ba } { b with build := bb } =
        SemVer.compareTo a b) ∧
    (∀ (v : SemVer) (ba bb : Option (List Char)),
      SemVer.isEqualTo { v with build := ba } { v with build := bb } = true) := by
  refine ⟨fun a b => ?_, fun a b ba bb => rfl, fun v ba bb => ?_⟩
  · by_cases h1 : a.major = b.major
    · by_cases h2 : a.minor = b.minor
      · by_cases h3 : a.patch = b.patch
        · have hl : SemVer.compareTo a b =
              compareModifiers a.preReleases b.preReleases := by
            rw [SemVer.compareTo, if_neg (by simpa using h1),
              if_neg (by simpa using h2), if_neg (by simpa using h3)]
          have hr : compareToSpec a b =
              compareModifiers a.preReleases b.preReleases := by
            rw [compareToSpec, if_neg (by simpa using cmpNat_zero_of_eq h1),
              if_neg (by simpa using cmpNat_zero_of_eq h2),
              if_neg (by simpa using cmpNat_zero_of_eq h3)]
          rw [hl, hr]
        · have hl : SemVer.compareTo a b =
              (if a.patch > b.patch then 1 else -1) := by
            rw [SemVer.compareTo, if_neg (by simpa using h1),
              if_neg (by simpa using h2), if_pos h3]
          have hr : compareToSpec a b =
              (if a.patch > b.patch then 1 else -1) := by
            rw [compareToSpec, if_neg (by simpa using cmpNat_zero_of_eq h1),
              if_neg (by simpa using cmpNat_zero_of_eq h2),
              if_pos (cmpNat_ne_zero h3), cmpNat_of_ne h3]
          rw [hl, hr]
      · have hl : SemVer.compareTo a b =
            (if a.minor > b.minor then 1 else -1) := by
          rw [SemVer.compareTo, if_neg (by simpa using h1), if_pos h2]
        have hr : compareToSpec a b =
            (if a.minor > b.minor then 1 else -1) := by
          rw [compareToSpec, if_neg (by simpa using cmpNat_zero_of_eq h1),
            if_pos (cmpNat_ne_zero h2), cmpNat_of_ne h2]
        rw [hl, hr]
    · have hl : SemVer.compareTo a b =
          (if a.major > b.major then 1 else -1) := by
        rw [SemVer.compareTo, if_pos h1]
      have hr : compareToSpec a b =
          (if a.major > b.major then 1 else -1) := by
        rw [compareToSpec, if_pos (cmpNat_ne_zero h1), cmpNat_of_ne h1]
      rw [hl, hr]
  · simp [SemVer.isEqualTo, SemVer.compareTo, compareModifiers_self]

/-! ## C3 -/

/-- C3: `compareModifiers` agrees with the reference chain comparison (the
strictly shorter chain compares greater — an empty chain beats any
non-empty chain — and equal-length chains compare element-wise by
identifier-then-value, first non-zero deciding), identical chains compare
0, and the result is always exactly -1, 0 or 1. -/
theorem c3_compareModifiers_reference :
    (∀ a b : List Modifier, compareModifiers a b = compareChainsSpec a b) ∧
    (∀ a : List Modifier, compareModifiers a a = 0) ∧
    (∀ a b : List Modifier, compareModifiers a b = -1 ∨
      compareModifiers a b = 0 ∨ compareModifiers a b = 1) ∧
    (∀ (m : Modifier) (bs : List Modifier), compareModifiers [] (m :: bs) = 1) ∧
    (∀ a b : List Modifier, a.length < b.length → compareModifiers a b = 1) ∧
    (∀ a b : List Modifier, b.length < a.length → compareModifiers a b = -1) := by
  refine ⟨fun a b => ?_, compareModifiers_self, fun a b => ?_,
    fun m bs => ?_, fun a b h => ?_, fun a b h => ?_⟩
  · simp only [compareModifiers, compareChainsSpec,
      compareModifiersLoop_eq_firstNonzero]
  · simp only [compareModifiers]
    split_ifs
    · simp
    · simp
    · exact compareModifiersLoop_mem a b
  · simp [compareModifiers]
  · simp [compareModifiers, h]
  · simp only [compareModifiers, if_neg (by omega : ¬a.length < b.length)]
    simp [h]

/-- Witness for C3 at concrete chains. -/
theorem c3_compareModifiers_reference_witness :
    compareModifiers [] [⟨some "rc".toList, 1, 1⟩] = 1 ∧
    compareModifiers [⟨some "alpha".toList, 1, 1⟩]
      [⟨some "alpha".toList, 1, 1⟩, ⟨some "beta".toList, 2, 1⟩] = 1 ∧
    compareModifiers [⟨some "alpha".toList, 1, 1⟩, ⟨some "beta".toList, 2, 1⟩]
      [⟨some "alpha".toList, 1, 1⟩] = -1 := by
  refine ⟨c3_compareModifiers_reference.2.2.2.1 _ _, ?_, ?_⟩
  · exact c3_compareModifiers_reference.2.2.2.2.1 _ _ (by decide)
  · exact c3_compareModifiers_reference.2.2.2.2.2 _ _ (by decide)

/-! ## Digit-slicing lemmas for the rendering rules -/

theorem allDigits_drop (s : List Char) (k : Nat) (h : allDigits s = true) :
    allDigits (s.drop k) = true := by
  simp only [allDigits, List.all_eq_true] at h ⊢
  exact fun c hc => h c (List.mem_of_mem_drop hc)

theorem allDigits_take (s : List Char) (k : Nat) (h : allDigits s = true) :
    allDigits (s.take k) = true := by
  simp only [allDigits, List.all_eq_true] at h ⊢
  exact fun c hc => h c (List.mem_of_mem_take hc)

theorem charsToNat_append (x y : List Char) :
    charsToNat (x ++ y) = charsToNat y + 10 ^ y.length * charsToNat x := by
  simp only [charsToNat, List.map_append, List.reverse_append]
  rw [Nat.ofDigits_append]
  simp

theorem takeLast_of_le (k : Nat) (s : List Char) (h : s.length ≤ k) :
    takeLast k s = s := by
  simp only [takeLast]
  rw [Nat.sub_eq_zero_of_le h, List.drop_zero]

theorem padStart_of_le (k : Nat) (c : Char) (s : List Char)
    (h : k ≤ s.length) : padStart k c s = s := by
  simp only [padStart]
  rw [Nat.sub_eq_zero_of_le h, List.replicate_zero, List.nil_append]

theorem padStart_padStart (k : Nat) (c : Char) (s : List Char) :
    padStart k c (padStart k c s) = padStart k c s := by
  apply padStart_of_le
  simp only [padStart, List.length_append, List.length_replicate]
  omega

/-- The last `k` digits of `v`'s decimal rendering are the zero-padded
rendering of `v % 10 ^ k`, when `v` has more than `k` digits. -/
theorem takeLast_natToChars (k v : Nat) (hk : 1 ≤ k) (hv : 10 ^ k ≤ v) :
    takeLast k (natToChars v) = padStart k '0' (natToChars (v % 10 ^ k)) := by
  have hvz : v ≠ 0 := by
    have : 0 < 10 ^ k := Nat.pos_pow_of_pos k (by norm_num)
    omega
  set s := natToChars v with hs
  have hsd : allDigits s = true := allDigits_natToChars v
  have hlen : k < s.length := by
    by_contra hc
    push_neg at hc
    have h1 : charsToNat s < 10 ^ s.length := charsToNat_lt s hsd
    have h2 : charsToNat s = v := by rw [hs, charsToNat_natToChars]
    have h3 : (10 : Nat) ^ s.length ≤ 10 ^ k :=
      Nat.pow_le_pow_right (by norm_num) hc
    omega
  set x := s.take (s.length - k) with hx
  set y := s.drop (s.length - k) with hy
  have hxy : x ++ y = s := List.take_append_drop _ s
  have hylen : y.length = k := by
    rw [hy, List.length_drop]
    omega
  have hyd : allDigits y = true := allDigits_drop s _ hsd
  have hval : charsToNat s = charsToNat y + 10 ^ k * charsToNat x := by
    rw [← hxy, charsToNat_append, hylen]
  have hylt : charsToNat y < 10 ^ k := by
    have := charsToNat_lt y hyd
    rwa [hylen] at this
  have hmod : v % 10 ^ k = charsToNat y := by
    have h2 : charsToNat s = v := by rw [hs, charsToNat_natToChars]
    rw [← h2, hval]
    rw [Nat.add_mul_mod_self_left, Nat.mod_eq_of_lt hylt]
  have hyne : y ≠ [] := by
    intro h0
    rw [h0] at hylen
    simp at hylen
    omega
  show y = padStart k '0' (natToChars (v % 10 ^ k))
  rw [hmod, ← hylen]
  exact (padStart_natToChars y hyd hyne).symm

/-- The `k`-digit tail of a value with at most `k` digits is the value's
rendering itself. -/
theorem takeLast_natToChars_small (k v : Nat) (hk : 1 ≤ k) (hv : v < 10 ^ k) :
    takeLast k (natToChars v) = natToChars v :=
  takeLast_of_le k _ (natToChars_length_le v k hv hk)

/-! ## C6 -/

/-- C6 counterexample: the claim reads "a `YY` slot renders the low 3
digits unpadded", but `formatVersionCore` renders the low **2** digits for
`YY` — at value 123 the code renders `"23"`, not `"123"`. -/
theorem c6_formatVersionCore_counterexample :
    formatVersionCore 123 CalToken.YY = "23".toList ∧
    takeLast 3 (natToChars 123) = "123".toList ∧
    formatVersionCore 123 CalToken.YY ≠ takeLast 3 (natToChars 123) := by
  decide

/-- C6 (amended): per-token rendering of a stored slot value — `YYYY`
zero-pads to 4 digits; `0Y` renders the low 3 digits zero-padded to 3;
`0M`/`0W`/`0D` render the low 2 digits zero-padded to 2; `YY` (amended:
low **2**, not low 3) and `MM`/`WW`/`DD` render the low 2 digits unpadded
(keeping a leading zero of the sliced digit string); `MAJOR`/`MINOR`/
`MICRO` render as plain integers. -/
theorem c6_formatVersionCore_amended :
    (∀ v : Nat, formatVersionCore v .YYYY = padStart 4 '0' (natToChars v)) ∧
    (∀ v : Nat,
      formatVersionCore v .zeroY = padStart 3 '0' (natToChars (v % 1000))) ∧
    (∀ (v : Nat) (t : CalToken), t = .zeroM ∨ t = .zeroW ∨ t = .zeroD →
      formatVersionCore v t = padStart 2 '0' (natToChars (v % 100))) ∧
    (∀ (v : Nat) (t : CalToken),
      t = .YY ∨ t = .MM ∨ t = .WW ∨ t = .DD →
      formatVersionCore v t =
        if v < 10 then natToChars v
        else padStart 2 '0' (natToChars (v % 100))) ∧
    (∀ (v : Nat) (t : CalToken), t.isCore = true →
      formatVersionCore v t = natToChars v) := by
  have low2 : ∀ v : Nat, takeLast 2 (natToChars v) =
      if v < 10 then natToChars v else padStart 2 '0' (natToChars (v % 100)) := by
    intro v
    by_cases h10 : v < 10
    · rw [if_pos h10]
      exact takeLast_natToChars_small 2 v (by norm_num) (by omega)
    · rw [if_neg h10]
      by_cases h100 : v < 100
      · rw [takeLast_natToChars_small 2 v (by norm_num) (by omega)]
        rw [Nat.mod_eq_of_lt (by omega)]
        refine (padStart_of_le _ _ _ ?_).symm
        by_contra hc
        push_neg at hc
        interval_cases hlen : (natToChars v).length
        · exact natToChars_ne_nil v (List.length_eq_zero.mp hlen)
        · have := charsToNat_lt (natToChars v) (allDigits_natToChars v)
          rw [hlen, charsToNat_natToChars] at this
          omega
      · exact takeLast_natToChars 2 v (by norm_num) (by omega)
  have low2p : ∀ v : Nat, padStart 2 '0' (takeLast 2 (natToChars v)) =
      padStart 2 '0' (natToChars (v % 100)) := by
    intro v
    rw [low2 v]
    by_cases h10 : v < 10
    · rw [if_pos h10, Nat.mod_eq_of_lt (by omega)]
    · rw [if_neg h10, padStart_padStart]
  have low3p : ∀ v : Nat, padStart 3 '0' (takeLast 3 (natToChars v)) =
      padStart 3 '0' (natToChars (v % 1000)) := by
    intro v
    by_cases h1000 : v < 1000
    · rw [takeLast_natToChars_small 3 v (by norm_num) (by omega),
        Nat.mod_eq_of_lt (by omega)]
    · rw [takeLast_natToChars 3 v (by norm_num) (by omega), padStart_padStart]
      norm_num
  refine ⟨fun v => ?_, fun v => ?_, fun v t ht => ?_, fun v t ht => ?_,
    fun v t ht => ?_⟩
  · simp [formatVersionCore, CalToken.isCore]
  · have h : formatVersionCore v .zeroY =
        padStart 3 '0' (takeLast 3 (natToChars v)) := by
      simp [formatVersionCore, CalToken.isCore]
    rw [h, low3p]
  · have h : formatVersionCore v t =
        padStart 2 '0' (takeLast 2 (natToChars v)) := by
      rcases ht with rfl | rfl | rfl <;> simp [formatVersionCore, CalToken.isCore]
    rw [h, low2p]
  · have h : formatVersionCore v t = takeLast 2 (natToChars v) := by
      rcases ht with rfl | rfl | rfl | rfl <;>
        simp [formatVersionCore, CalToken.isCore]
    rw [h, low2 v]
  · cases t <;> simp_all [formatVersionCore, CalToken.isCore]

/-- Witness for C6 (amended) at concrete values. -/
theorem c6_formatVersionCore_amended_witness :
    formatVersionCore 123 CalToken.zeroM = "23".toList ∧
    formatVersionCore 7 CalToken.MM = "7".toList ∧
    formatVersionCore 2023 CalToken.MICRO = "2023".toList := by
  refine ⟨?_, ?_, ?_⟩
  · rw [c6_formatVersionCore_amended.2.2.1 123 CalToken.zeroM (Or.inl rfl)]
    decide
  · rw [c6_formatVersionCore_amended.2.2.2.1 7 CalToken.MM (Or.inr (Or.inl rfl))]
    decide
  · rw [c6_formatVersionCore_amended.2.2.2.2 2023 CalToken.MICRO rfl]
    decide

/-! ## C8 -/

instance {ε α : Type} [DecidableEq ε] [DecidableEq α] :
    DecidableEq (Except ε α) := fun x y =>
  match x, y with
  | .ok a, .ok b =>
    match decEq a b with
    | isTrue h => isTrue (h ▸ rfl)
    | isFalse h => isFalse fun hc => h (Except.ok.inj hc)
  | .error a, .error b =>
    match decEq a b with
    | isTrue h => isTrue (h ▸ rfl)
    | isFalse h => isFalse fun hc => h (Except.error.inj hc)
  | .ok _, .error _ => isFalse fun hc => Except.noConfusion hc
  | .error _, .ok _ => isFalse fun hc => Except.noConfusion hc

/-- C8 counterexample: `"aa.bb"` is a template of exactly 2 dot-separated
(nonempty) segments, none of which is in the token set, so the claim
predicts an unknown-token error; `formatFromString` rejects it with the
invalid-format (arity) error instead, because its template regex only
admits `[A-Z0]` segments. -/
theorem c8_formatFromString_counterexample :
    formatFromString "aa.bb".toList = .error .invalidFormat ∧
    (splitOnChar '.' "aa.bb".toList).length = 2 ∧
    (splitOnChar '.' "aa.bb".toList).all
      (fun s => decide (tokenOfSpelling s = none) && decide (s ≠ [])) = true ∧
    (Except.error FormatError.invalidFormat : Except FormatError Format) ≠
      .error (.unknownElement "aa".toList) := by
  refine ⟨by decide, by decide, by decide, by decide⟩

theorem checkSeg_not_mem {used : List (List Char)} {s : List Char}
    (h : ¬ s ∈ used) :
    checkSeg used s =
      (match tokenOfSpelling s with
       | some t => .ok t
       | none => .error (.unknownElement s)) := by
  simp [checkSeg, h]

theorem checkSeg_mem {used : List (List Char)} {s : List Char}
    (h : s ∈ used) : checkSeg used s = .error (.duplicateElement s) := by
  simp [checkSeg, h]

/-- C8 (amended): template compilation fails with the invalid-format error
when the template is not exactly 2 or 3 dot-separated nonempty `[A-Z0]`
segments (this covers both wrong arity and segments with characters
outside `[A-Z0]`, e.g. lowercase ones); among templates passing that
regex, a repeated token yields the duplicate error, a segment outside the
token set yields the unknown error (provided no duplicate precedes it),
and every template of 2 or 3 distinct tokens drawn from the set compiles
successfully. -/
theorem c8_formatFromString_errors (f : List Char) :
    (¬ ((splitOnChar '.' f).length = 2 ∨ (splitOnChar '.' f).length = 3) →
      formatFromString f = .error .invalidFormat) ∧
    (¬ ((splitOnChar '.' f).all
        (fun s => decide (s ≠ []) && s.all isTemplateChar) = true) →
      formatFromString f = .error .invalidFormat) ∧
    (((splitOnChar '.' f).length = 2 ∨ (splitOnChar '.' f).length = 3) →
      ((splitOnChar '.' f).all
        (fun s => decide (s ≠ []) && s.all isTemplateChar) = true) →
      (∀ s ∈ splitOnChar '.' f, (tokenOfSpelling s).isSome = true) →
      ¬ (splitOnChar '.' f).Nodup →
      (∃ t, formatFromString f = .error (.duplicateElement t))) ∧
    (((splitOnChar '.' f).length = 2 ∨ (splitOnChar '.' f).length = 3) →
      ((splitOnChar '.' f).all
        (fun s => decide (s ≠ []) && s.all isTemplateChar) = true) →
      (splitOnChar '.' f).Nodup →
      (∃ s ∈ splitOnChar '.' f, tokenOfSpelling s = none) →
      (∃ t, formatFromString f = .error (.unknownElement t))) ∧
    (((splitOnChar '.' f).length = 2 ∨ (splitOnChar '.' f).length = 3) →
      ((splitOnChar '.' f).all
        (fun s => decide (s ≠ []) && s.all isTemplateChar) = true) →
      (∀ s ∈ splitOnChar '.' f, (tokenOfSpelling s).isSome = true) →
      (splitOnChar '.' f).Nodup →
      (∃ fmt, formatFromString f = .ok fmt)) := by
  refine ⟨fun h => ?_, fun h => ?_, fun hlen hcs htok hdup => ?_,
    fun hlen hcs hnd ⟨s₀, hs₀, hs₀n⟩ => ?_, fun hlen hcs htok hnd => ?_⟩
  · rw [formatFromString, if_pos h]
  · by_cases hlen : (splitOnChar '.' f).length = 2 ∨
        (splitOnChar '.' f).length = 3
    · rw [formatFromString, if_neg (not_not_intro hlen), if_pos h]
    · rw [formatFromString, if_pos hlen]
  · rcases hlen with h2 | h3
    · obtain ⟨a, b, hab⟩ := List.length_eq_two.mp h2
      rw [hab] at htok
      have hba : b = a := by
        by_contra hne
        refine hdup ?_
        rw [hab, List.nodup_cons]
        exact ⟨by simp [Ne.symm hne], by simp⟩
      obtain ⟨ta, hta⟩ := Option.isSome_iff_exists.mp (htok a (by simp))
      refine ⟨b, ?_⟩
      rw [formatFromString, if_neg (not_not_intro (Or.inl h2)),
        if_neg (not_not_intro hcs), hab]
      dsimp only
      rw [checkSeg_not_mem (by simp), hta, checkSeg_mem (by simp [hba])]
      rfl
    · obtain ⟨a, b, c, habc⟩ := List.length_eq_three.mp h3
      rw [habc] at htok hdup
      rw [formatFromString, if_neg (not_not_intro (Or.inr h3)),
        if_neg (not_not_intro hcs), habc]
      dsimp only
      obtain ⟨ta, hta⟩ := Option.isSome_iff_exists.mp (htok a (by simp))
      obtain ⟨tb, htb⟩ := Option.isSome_iff_exists.mp (htok b (by simp))
      rw [checkSeg_not_mem (List.not_mem_nil a), hta]
      by_cases hba : b = a
      · exact ⟨b, by rw [checkSeg_mem (by simp [hba])]; rfl⟩
      · rw [checkSeg_not_mem (by simp [hba]), htb]
        have hc : c = a ∨ c = b := by
          by_contra hne
          push_neg at hne
          refine hdup ?_
          rw [List.nodup_cons, List.nodup_cons]
          refine ⟨by simp [Ne.symm hba, Ne.symm hne.1], by simp [Ne.symm hne.2], by simp⟩
        exact ⟨c, by rw [checkSeg_mem (by simp [hc])]; rfl⟩
  · rcases hlen with h2 | h3
    · obtain ⟨a, b, hab⟩ := List.length_eq_two.mp h2
      rw [formatFromString, if_neg (not_not_intro (Or.inl h2)),
        if_neg (not_not_intro hcs), hab]
      rw [hab] at hs₀ hnd
      dsimp only
      have hne1 : a ≠ b := by
        rw [List.nodup_cons] at hnd
        exact fun h => hnd.1 (by simp [h])
      simp only [List.mem_cons, List.not_mem_nil, or_false] at hs₀
      rw [checkSeg_not_mem (List.not_mem_nil a)]
      cases hta : tokenOfSpelling a with
      | none => exact ⟨a, rfl⟩
      | some ta =>
        rw [checkSeg_not_mem (by
          simp only [List.mem_singleton]
          exact fun h => hne1 h.symm)]
        have hbn : tokenOfSpelling b = none := by
          rcases hs₀ with rfl | rfl
          · rw [hta] at hs₀n; exact absurd hs₀n (by simp)
          · exact hs₀n
        rw [hbn]
        exact ⟨b, rfl⟩
    · obtain ⟨a, b, c, habc⟩ := List.length_eq_three.mp h3
      rw [formatFromString, if_neg (not_not_intro (Or.inr h3)),
        if_neg (not_not_intro hcs), habc]
      rw [habc] at hs₀ hnd
      dsimp only
      have hne1 : a ≠ b := by
        rw [List.nodup_cons] at hnd
        exact fun h => hnd.1 (by simp [h])
      have hne2 : a ≠ c := by
        rw [List.nodup_cons] at hnd
        exact fun h => hnd.1 (by simp [h])
      have hne3 : b ≠ c := by
        rw [List.nodup_cons, List.nodup_cons] at hnd
        exact fun h => hnd.2.1 (by simp [h])
      simp only [List.mem_cons, List.not_mem_nil, or_false] at hs₀
      rw [checkSeg_not_mem (List.not_mem_nil a)]
      cases hta : tokenOfSpelling a with
      | none => exact ⟨a, rfl⟩
      | some ta =>
        rw [checkSeg_not_mem (by
          simp only [List.mem_singleton]
          exact fun h => hne1 h.symm)]
        cases htb : tokenOfSpelling b with
        | none => exact ⟨b, rfl⟩
        | some tb =>
          rw [checkSeg_not_mem (by
            simp only [List.mem_cons, List.not_mem_nil, or_false]
            rintro (h | h)
            · exact hne2 h.symm
            · exact hne3 h.symm)]
          have hcn : tokenOfSpelling c = none := by
            rcases hs₀ with rfl | rfl | rfl
            · rw [hta] at hs₀n; exact absurd hs₀n (by simp)
            · rw [htb] at hs₀n; exact absurd hs₀n (by simp)
            · exact hs₀n
          rw [hcn]
          exact ⟨c, rfl⟩
  · rcases hlen with h2 | h3
    · obtain ⟨a, b, hab⟩ := List.length_eq_two.mp h2
      rw [formatFromString, if_neg (not_not_intro (Or.inl h2)),
        if_neg (not_not_intro hcs), hab]
      rw [hab] at htok hnd
      dsimp only
      have hne1 : a ≠ b := by
        rw [List.nodup_cons] at hnd
        exact fun h => hnd.1 (by simp [h])
      obtain ⟨ta, hta⟩ := Option.isSome_iff_exists.mp (htok a (by simp))
      obtain ⟨tb, htb⟩ := Option.isSome_iff_exists.mp (htok b (by simp))
      rw [checkSeg_not_mem (List.not_mem_nil a), hta,
        checkSeg_not_mem (by
          simp only [List.mem_singleton]
          exact fun h => hne1 h.symm), htb]
      exact ⟨⟨ta, tb, none⟩, rfl⟩
    · obtain ⟨a, b, c, habc⟩ := List.length_eq_three.mp h3
      rw [formatFromString, if_neg (not_not_intro (Or.inr h3)),
        if_neg (not_not_intro hcs), habc]
      rw [habc] at htok hnd
      dsimp only
      have hne1 : a ≠ b := by
        rw [List.nodup_cons] at hnd
        exact fun h => hnd.1 (by simp [h])
      have hne2 : a ≠ c := by
        rw [List.nodup_cons] at hnd
        exact fun h => hnd.1 (by simp [h])
      have hne3 : b ≠ c := by
        rw [List.nodup_cons, List.nodup_cons] at hnd
        exact fun h => hnd.2.1 (by simp [h])
      obtain ⟨ta, hta⟩ := Option.isSome_iff_exists.mp (htok a (by simp))
      obtain ⟨tb, htb⟩ := Option.isSome_iff_exists.mp (htok b (by simp))
      obtain ⟨tc, htc⟩ := Option.isSome_iff_exists.mp (htok c (by simp))
      rw [checkSeg_not_mem (List.not_mem_nil a), hta,
        checkSeg_not_mem (by
          simp only [List.mem_singleton]
          exact fun h => hne1 h.symm), htb,
        checkSeg_not_mem (by
          simp only [List.mem_cons, List.not_mem_nil, or_false]
          rintro (h | h)
          · exact hne2 h.symm
          · exact hne3 h.symm), htc]
      exact ⟨⟨ta, tb, some tc⟩, rfl⟩

/-- Witness for C8 at concrete templates. -/
theorem c8_formatFromString_errors_witness :
    formatFromString "YYYY".toList = .error .invalidFormat ∧
    (∃ t, formatFromString "YYYY.YYYY".toList = .error (.duplicateElement t)) ∧
    (∃ t, formatFromString "YYY.MM".toList = .error (.unknownElement t)) ∧
    (∃ fmt, formatFromString "YYYY.MM.MICRO".toList = .ok fmt) := by
  refine ⟨(c8_formatFromString_errors "YYYY".toList).1 (by decide),
    (c8_formatFromString_errors "YYYY.YYYY".toList).2.2.1 (by decide)
      (by decide) (by decide) (by decide),
    (c8_formatFromString_errors "YYY.MM".toList).2.2.2.1 (by decide)
      (by decide) (by decide) ⟨"YYY".toList, by decide, by decide⟩,
    (c8_formatFromString_errors "YYYY.MM.MICRO".toList).2.2.2.2 (by decide)
      (by decide) (by decide) (by decide)⟩

/-! ## C9 -/

/-- C9: `CalVer.compareTo` (and hence `isEqualTo`/`isGreaterThan`/
`isLessThan`) fails with the incompatible-format error exactly when the two
formats' major, minor and micro tokens are not pairwise identical
(including presence/absence of the micro token); with identical formats it
returns a value without error. -/
theorem c9_calver_compareTo_incompatible (a b : Calver.CalVer) :
    ((∃ c, Calver.compareTo a b = .ok c) ↔
      (a.format.major = b.format.major ∧ a.format.minor = b.format.minor ∧
        a.format.micro = b.format.micro)) ∧
    ((Calver.compareTo a b = .error .incompatibleFormats) ↔
      ¬ (a.format.major = b.format.major ∧ a.format.minor = b.format.minor ∧
        a.format.micro = b.format.micro)) ∧
    ((∃ r, Calver.isEqualTo a b = .ok r) ↔ (∃ c, Calver.compareTo a b = .ok c)) ∧
    ((∃ r, Calver.isGreaterThan a b = .ok r) ↔
      (∃ c, Calver.compareTo a b = .ok c)) ∧
    ((∃ r, Calver.isLessThan a b = .ok r) ↔
      (∃ c, Calver.compareTo a b = .ok c)) := by
  have hiff : isFormatIdentical a.format b.format = true ↔
      (a.format.major = b.format.major ∧ a.format.minor = b.format.minor ∧
        a.format.micro = b.format.micro) := by
    simp [isFormatIdentical, and_assoc]
  by_cases hf : isFormatIdentical a.format b.format = true
  · have hok : Calver.compareTo a b = .ok (Calver.compareToVal a b) := by
      rw [Calver.compareTo, if_neg (not_not_intro hf)]
    refine ⟨⟨fun _ => hiff.mp hf, fun _ => ⟨_, hok⟩⟩,
      ⟨fun h => ?_, fun h => absurd (hiff.mp hf) h⟩, ?_, ?_, ?_⟩
    · rw [hok] at h; exact absurd h (by simp)
    all_goals
      simp only [Calver.isEqualTo, Calver.isGreaterThan, Calver.isLessThan,
        hok, Except.map]
      exact ⟨fun _ => ⟨_, rfl⟩, fun _ => ⟨_, rfl⟩⟩
  · have herr : Calver.compareTo a b = .error .incompatibleFormats := by
      rw [Calver.compareTo, if_pos hf]
    refine ⟨⟨fun ⟨c, hc⟩ => ?_, fun h => absurd (hiff.mpr h) hf⟩,
      ⟨fun _ => fun h => hf (hiff.mpr h), fun _ => herr⟩, ?_, ?_, ?_⟩
    · rw [herr] at hc; exact absurd hc (by simp)
    all_goals
      simp only [Calver.isEqualTo, Calver.isGreaterThan, Calver.isLessThan,
        herr, Except.map]
      constructor
      · rintro ⟨r, hr⟩; exact absurd hr (by simp)
      · rintro ⟨c, hc⟩; exact absurd hc (by simp)

/-! ## C10 -/

/-- C10: a CalVer increment of kind MAJOR, MINOR or MICRO always returns a
value whose prefix is absent (the receiver's prefix is dropped even when
set), unlike SemVer increments, which pass the prefix through. -/
theorem c10_calver_increment_drops_pfx :
    (∀ (clock : Clock) (v : Calver.CalVer) (k : CalVerIncrement)
        (w : Calver.CalVer),
      (k = .MAJOR ∨ k = .MINOR ∨ k = .MICRO) →
      Calver.increment clock v k = .ok w → w.pfx = none) ∧
    (∀ (v : SemVer) (k : SemVerIncrement) (m : Option (List Char)),
      (SemVer.increment v k m).pfx = v.pfx) := by
  constructor
  · intro clock v k w hk hw
    rcases hk with rfl | rfl | rfl <;>
    · simp only [Calver.increment] at hw
      split_ifs at hw <;> (injection hw with hw; rw [← hw]; rfl)
  · intro v k m
    cases k <;> rfl

/-- Witness for C10 at a concrete prefixed CalVer and SemVer. -/
theorem c10_calver_increment_drops_pfx_witness :
    (⟨none, 4, 0, none, none,
      ⟨CalToken.MAJOR, CalToken.MM, none⟩⟩ : Calver.CalVer).pfx = none ∧
    (SemVer.increment ⟨some "v".toList, 1, 2, 3, [], none⟩
      .MINOR none).pfx = some "v".toList :=
  ⟨c10_calver_increment_drops_pfx.1 ⟨2023, 0, 1, 1⟩
      ⟨some "v".toList, 3, 7, none, none, ⟨.MAJOR, .MM, none⟩⟩ .MAJOR _
      (Or.inl rfl) (by decide),
    c10_calver_increment_drops_pfx.2 ⟨some "v".toList, 1, 2, 3, [], none⟩
      .MINOR none⟩

/-! ## C7 -/

theorem isFormatIdentical_self (f : Format) : isFormatIdentical f f = true := by
  simp [isFormatIdentical]

/-- C7: increment monotonicity.  For every SemVer `v` and kind in
{MAJOR, MINOR, PATCH}, `v.increment(K).isGreaterThan(v)`; and for every
CalVer whose format contains the requested token (exactly once, as in
every compiled format) and whose micro field respects the constructor
invariant (present whenever the format has a micro token),
`v.increment(K).isGreaterThan(v)` for K in {MAJOR, MINOR, MICRO}. -/
theorem c7_increment_monotonic :
    (∀ (v : SemVer) (m : Option (List Char)),
      SemVer.isGreaterThan (SemVer.increment v .MAJOR m) v = true ∧
      SemVer.isGreaterThan (SemVer.increment v .MINOR m) v = true ∧
      SemVer.isGreaterThan (SemVer.increment v .PATCH m) v = true) ∧
    (∀ (clock : Clock) (v : Calver.CalVer) (k : CalVerIncrement)
        (w : Calver.CalVer),
      (k = .MAJOR ∨ k = .MINOR ∨ k = .MICRO) →
      (v.format.micro.isSome = true → v.micro.isSome = true) →
      Calver.increment clock v k = .ok w →
      Calver.isGreaterThan w v = .ok true) := by
  constructor
  · intro v m
    refine ⟨?_, ?_, ?_⟩ <;>
    · simp only [SemVer.increment, SemVer.isGreaterThan, SemVer.compareTo,
        decide_eq_true_eq]
      split_ifs <;> first | rfl | omega | (exfalso; omega)
  · intro clock v k w hk hmic hw
    have hgoal : ∀ w' : Calver.CalVer, w'.format = v.format →
        Calver.compareToVal w' v = 1 →
        Calver.isGreaterThan w' v = .ok true := by
      intro w' hf hcv
      rw [Calver.isGreaterThan, Calver.compareTo, hf,
        if_neg (not_not_intro (isFormatIdentical_self v.format)), hcv]
      rfl
    have hmicro_case : ∀ tok : CalToken,
        countToken v.format tok = 1 → v.format.major ≠ tok →
        v.format.minor ≠ tok → v.format.micro.isSome = true := by
      intro tok hc h1 h2
      rcases hfm : v.format.micro with _ | mt
      · rw [countToken, if_neg h1, if_neg h2, hfm] at hc
        simp at hc
      · rfl
    rcases hk with rfl | rfl | rfl <;>
    · simp only [Calver.increment] at hw
      split_ifs at hw with h0 h1 h2 <;> injection hw with hw <;> rw [← hw]
      -- matched slot is the major slot
      · refine hgoal _ rfl ?_
        rw [Calver.compareToVal]
        rw [if_pos (by simp [Calver.construct] <;> omega)]
      -- matched slot is the minor slot
      · refine hgoal _ rfl ?_
        rw [Calver.compareToVal]
        rw [if_neg (by simp [Calver.construct] <;> omega),
          if_neg (by simp [Calver.construct] <;> omega),
          if_pos (by simp [Calver.construct] <;> omega)]
      -- matched slot is the micro slot
      · have hms : v.format.micro.isSome = true := by
          apply hmicro_case _ (by omega) h1 h2
        obtain ⟨mk, hmk⟩ := Option.isSome_iff_exists.mp (hmic hms)
        refine hgoal _ rfl ?_
        rw [Calver.compareToVal]
        rw [if_neg (by simp [Calver.construct] <;> omega),
          if_neg (by simp [Calver.construct] <;> omega),
          if_neg (by simp [Calver.construct] <;> omega),
          if_neg (by simp [Calver.construct] <;> omega)]
        have : (Calver.construct v.format none (some v.major) (some v.minor)
            (some (v.micro.getD 0 + 1)) none).micro = some (mk + 1) := by
          simp [Calver.construct, hmk]
        rw [this, hmk]
        dsimp only
        rw [if_pos (by omega)]

/-- Witness for C7 at concrete versions. -/
theorem c7_increment_monotonic_witness :
    (SemVer.isGreaterThan
      (SemVer.increment ⟨none, 1, 2, 3, [], none⟩ .MAJOR none)
      ⟨none, 1, 2, 3, [], none⟩ = true) ∧
    Calver.isGreaterThan
      ⟨none, 2023, 6, none, none, ⟨CalToken.YYYY, CalToken.MINOR, none⟩⟩
      ⟨none, 2023, 5, none, none, ⟨CalToken.YYYY, CalToken.MINOR, none⟩⟩ =
      .ok true :=
  ⟨(c7_increment_monotonic.1 ⟨none, 1, 2, 3, [], none⟩ none).1,
    c7_increment_monotonic.2 ⟨2023, 0, 1, 1⟩
      ⟨none, 2023, 5, none, none, ⟨.YYYY, .MINOR, none⟩⟩ .MINOR _
      (Or.inr (Or.inl rfl)) (by decide) (by decide)⟩

/-! ## C4 -/

/-- C4 counterexample: with format `MAJOR.MM` (the `MAJOR` token on the
first structural slot), incrementing MAJOR resets the structurally later
`MM` slot to 0 instead of retaining its value 7: `3.7` becomes `4.0`, not
`4.7`. -/
theorem c4_calver_increment_counterexample :
    Calver.increment ⟨2023, 0, 1, 1⟩
      ⟨none, 3, 7, none, none, ⟨CalToken.MAJOR, CalToken.MM, none⟩⟩ .MAJOR =
      .ok ⟨none, 4, 0, none, none, ⟨CalToken.MAJOR, CalToken.MM, none⟩⟩ ∧
    (⟨none, 4, 0, none, none, ⟨CalToken.MAJOR, CalToken.MM, none⟩⟩ :
        Calver.CalVer).minor = 0 ∧
    (⟨none, 3, 7, none, none, ⟨CalToken.MAJOR, CalToken.MM, none⟩⟩ :
        Calver.CalVer).minor = 7 ∧
    (0 : Nat) ≠ 7 := by
  refine ⟨by decide, by decide, by decide, by decide⟩

/-- C4 (amended): `increment(kind)` for kind in {MAJOR, MINOR, MICRO}
fails with the token-not-in-format error when the number of slots carrying
the kind's token differs from 1; on success it adds 1 to the matched
slot's stored value and clears the modifier, structurally **earlier**
slots retain their values, and structurally **later** slots are reset
(minor and micro to 0 when the major slot matches; micro to 0 when the
minor slot matches — micro staying absent when the format has no micro
token). -/
theorem c4_calver_core_increment (clock : Clock) (v : Calver.CalVer)
    (k : CalVerIncrement) (tok : CalToken)
    (hk : (k = .MAJOR ∧ tok = .MAJOR) ∨ (k = .MINOR ∧ tok = .MINOR) ∨
      (k = .MICRO ∧ tok = .MICRO)) :
    (countToken v.format tok ≠ 1 →
      Calver.increment clock v k = .error .tokenNotInFormat) ∧
    (countToken v.format tok = 1 → v.format.major = tok →
      Calver.increment clock v k = .ok ⟨none, v.major + 1, 0,
        (if v.format.micro.isSome then some 0 else none), none, v.format⟩) ∧
    (countToken v.format tok = 1 → v.format.major ≠ tok →
      v.format.minor = tok →
      Calver.increment clock v k = .ok ⟨none, v.major, v.minor + 1,
        (if v.format.micro.isSome then some 0 else none), none, v.format⟩) ∧
    (countToken v.format tok = 1 → v.format.major ≠ tok →
      v.format.minor ≠ tok →
      Calver.increment clock v k = .ok ⟨none, v.major, v.minor,
        some (v.micro.getD 0 + 1), none, v.format⟩) := by
  rcases hk with ⟨rfl, rfl⟩ | ⟨rfl, rfl⟩ | ⟨rfl, rfl⟩ <;>
    refine ⟨fun h => ?_, fun hc hm => ?_, fun hc hm1 hm2 => ?_,
      fun hc hm1 hm2 => ?_⟩ <;>
    simp only [Calver.increment]
  all_goals first
    | rw [if_pos h]
    | (rw [if_neg (fun hh => hh hc), if_pos hm]; rfl)
    | (rw [if_neg (fun hh => hh hc), if_neg hm1, if_pos hm2]; rfl)
    | (rw [if_neg (fun hh => hh hc), if_neg hm1, if_neg hm2]; rfl)

/-- Witness for C4 at concrete versions. -/
theorem c4_calver_core_increment_witness :
    Calver.increment ⟨2023, 0, 1, 1⟩
      ⟨none, 2023, 5, some 2, some "rc.1".toList,
        ⟨CalToken.YYYY, CalToken.MM, some CalToken.MICRO⟩⟩ .MICRO =
      .ok ⟨none, 2023, 5, some 3, none,
        ⟨CalToken.YYYY, CalToken.MM, some CalToken.MICRO⟩⟩ ∧
    Calver.increment ⟨2023, 0, 1, 1⟩
      ⟨none, 2023, 5, none, none, ⟨CalToken.YYYY, CalToken.MM, none⟩⟩
      .MAJOR = .error .tokenNotInFormat := by
  constructor
  · have h := (c4_calver_core_increment ⟨2023, 0, 1, 1⟩
      ⟨none, 2023, 5, some 2, some "rc.1".toList,
        ⟨CalToken.YYYY, CalToken.MM, some CalToken.MICRO⟩⟩ .MICRO .MICRO
      (Or.inr (Or.inr ⟨rfl, rfl⟩))).2.2.2 (by decide) (by decide) (by decide)
    exact h
  · exact (c4_calver_core_increment ⟨2023, 0, 1, 1⟩
      ⟨none, 2023, 5, none, none, ⟨CalToken.YYYY, CalToken.MM, none⟩⟩
      .MAJOR .MAJOR (Or.inl ⟨rfl, rfl⟩)).1 (by decide)

/-! ## C5 -/

/-- C5 counterexample: with an unchanged calendar and existing modifier
`alpha.1`, `increment(CALENDAR)` bumps the existing key — the result is
`alpha.2` — whereas the claim says the modifier chain is incremented under
the name `"build"` (which would yield the chain `alpha.1, build.1`). -/
theorem c5_calendar_increment_counterexample :
    Calver.increment ⟨2023, 0, 1, 1⟩
      ⟨none, 2023, 1, none, some "alpha.1".toList,
        ⟨CalToken.YYYY, CalToken.MINOR, none⟩⟩ .CALENDAR =
      .ok ⟨none, 2023, 1, none, some "alpha.2".toList,
        ⟨CalToken.YYYY, CalToken.MINOR, none⟩⟩ ∧
    getModifiers (some "alpha.2".toList) ≠
      incrementModifier (getModifiers (some "alpha.1".toList))
        "build".toList := by
  refine ⟨by decide, by decide⟩

theorem updateCalendar_core (clock : Clock) {t : CalToken}
    (h : t.isCore = true) : updateCalendar clock (some t) = none := by
  simp [updateCalendar, h]

theorem updateCalendar_calendar (clock : Clock) {t : CalToken}
    (h : t.isCore = false) :
    ∃ u, updateCalendar clock (some t) = some u := by
  cases t <;> simp [updateCalendar, CalToken.isCore] <;>
    first | exact ⟨_, rfl⟩ | exact absurd h (by decide)

/-- Characterisation of one CALENDAR-reset step: with tokens unique, zero
the slot carrying the token (when one does). -/
theorem setSlotZero_char (w : Calver.CalVer) (t : CalToken)
    (hu : countToken w.format t ≤ 1) :
    Calver.setSlotZero w t = { w with
      major := if w.format.major = t then 0 else w.major,
      minor := if w.format.minor = t then 0 else w.minor,
      micro := if w.format.micro = some t then some 0 else w.micro } := by
  by_cases hA : w.format.major = t <;> by_cases hB : w.format.minor = t <;>
    rcases hC : w.format.micro with _ | mt
  · exfalso; simp [countToken, hA, hB, hC] at hu
  · by_cases hCt : mt = t
    · exfalso; simp [countToken, hA, hB, hC, hCt] at hu
    · exfalso; simp [countToken, hA, hB, hC, hCt] at hu
  · have hcnt : countToken w.format t = 1 := by
      simp [countToken, hA, hB, hC]
    rw [Calver.setSlotZero, if_neg (not_not_intro hcnt), if_pos hA]
    simp [hA, hB, hC]
  · by_cases hCt : mt = t
    · exfalso; simp [countToken, hA, hB, hC, hCt] at hu
    · have hcnt : countToken w.format t = 1 := by
        simp [countToken, hA, hB, hC, hCt]
      rw [Calver.setSlotZero, if_neg (not_not_intro hcnt), if_pos hA]
      simp [hA, hB, hC, hCt]
  · have hcnt : countToken w.format t = 1 := by
      simp [countToken, hA, hB, hC]
    rw [Calver.setSlotZero, if_neg (not_not_intro hcnt), if_neg hA, if_pos hB]
    simp [hA, hB, hC]
  · by_cases hCt : mt = t
    · exfalso; simp [countToken, hA, hB, hC, hCt] at hu
    · have hcnt : countToken w.format t = 1 := by
        simp [countToken, hA, hB, hC, hCt]
      rw [Calver.setSlotZero, if_neg (not_not_intro hcnt), if_neg hA,
        if_pos hB]
      simp [hA, hB, hC, hCt]
  · have hcnt : countToken w.format t = 0 := by
      simp [countToken, hA, hB, hC]
    rw [Calver.setSlotZero, if_pos (by omega)]
    simp [hA, hB, hC]
  · by_cases hCt : mt = t
    · have hcnt : countToken w.format t = 1 := by
        simp [countToken, hA, hB, hC, hCt]
      rw [Calver.setSlotZero, if_neg (not_not_intro hcnt), if_neg hA,
        if_neg hB]
      simp [hA, hB, hC, hCt]
    · have hcnt : countToken w.format t = 0 := by
        simp [countToken, hA, hB, hC, hCt]
      rw [Calver.setSlotZero, if_pos (by omega)]
      simp [hA, hB, hC, hCt]

/-- Claim-side description of the calendar-only recomputation inside
`increment(CALENDAR)`: each slot bound to a calendar token is recomputed
from the clock, slots bound to MAJOR/MINOR/MICRO tokens are left
unchanged, and prefix/modifier/format are carried over (an absent micro
under a micro-bearing format materialises as 0, as in the constructor). -/
def calendarRecompute (clock : Clock) (v : Calver.CalVer) : Calver.CalVer :=
  ⟨v.pfx,
    (if v.format.major.isCore then v.major
     else (updateCalendar clock (some v.format.major)).getD v.major),
    (if v.format.minor.isCore then v.minor
     else (updateCalendar clock (some v.format.minor)).getD v.minor),
    (match v.format.micro with
     | none => v.micro
     | some t =>
       if t.isCore then some (v.micro.getD 0)
       else some ((updateCalendar clock (some t)).getD 0)),
    v.modifier, v.format⟩

theorem construct_eq_calendarRecompute (clock : Clock) (v : Calver.CalVer) :
    Calver.construct v.format v.pfx
      (some ((updateCalendar clock (some v.format.major)).getD v.major))
      (some ((updateCalendar clock (some v.format.minor)).getD v.minor))
      (match updateCalendar clock v.format.micro with
       | some u => some u
       | none => v.micro)
      v.modifier = calendarRecompute clock v := by
  unfold Calver.construct calendarRecompute
  congr 1
  · by_cases h : v.format.major.isCore = true
    · rw [if_pos h, updateCalendar_core clock h]
      rfl
    · rw [if_neg h]
      rfl
  · by_cases h : v.format.minor.isCore = true
    · rw [if_pos h, updateCalendar_core clock h]
      rfl
    · rw [if_neg h]
      rfl
  · rcases hm : v.format.micro with _ | t
    · rcases v.micro with _ | x <;> simp [updateCalendar, hm]
    · by_cases ht : t.isCore = true
      · rw [updateCalendar_core clock ht]
        rcases v.micro with _ | x <;> simp [hm, ht]
      · obtain ⟨u, hu⟩ := updateCalendar_calendar clock
          (by simpa using ht)
        simp [hu, ht]

theorem isEqualTo_calendarRecompute (clock : Clock) (v : Calver.CalVer) :
    Calver.isEqualTo (calendarRecompute clock v) v =
      .ok (decide (Calver.compareToVal (calendarRecompute clock v) v = 0)) := by
  rw [Calver.isEqualTo, Calver.compareTo,
    if_neg (not_not_intro (show isFormatIdentical
      (calendarRecompute clock v).format v.format = true from
      isFormatIdentical_self v.format))]
  rfl

/-- C5 (amended): `increment(CALENDAR)` recomputes each slot bound to a
calendar token from the clock, leaving MAJOR/MINOR/MICRO-token slots
unchanged (`calendarRecompute`).  If the recomputed version is equal under
`compareTo` to the original, the single modifier string is incremented as
a `key.value` pair: `"build.1"` when no modifier exists, `key.(value+1)`
when the modifier parses as `key.value` (the existing key is kept — it is
**not** the claimed chain-increment under the name `"build"`), and an
error when a modifier exists but does not parse.  Otherwise every slot
whose token is MAJOR, MINOR or MICRO is zeroed, the modifier is cleared,
and the new value is returned (prefix preserved). -/
theorem c5_calendar_increment (clock : Clock) (v : Calver.CalVer)
    (huniq : ∀ t : CalToken, countToken v.format t ≤ 1) :
    (Calver.compareToVal (calendarRecompute clock v) v ≠ 0 →
      Calver.increment clock v .CALENDAR = .ok
        ⟨v.pfx,
          (if v.format.major.isCore then 0
           else (calendarRecompute clock v).major),
          (if v.format.minor.isCore then 0
           else (calendarRecompute clock v).minor),
          (match v.format.micro with
           | some t => if t.isCore then some 0
             else (calendarRecompute clock v).micro
           | none => (calendarRecompute clock v).micro),
          none, v.format⟩) ∧
    (Calver.compareToVal (calendarRecompute clock v) v = 0 →
      (v.modifier = none →
        Calver.increment clock v .CALENDAR = .ok
          ⟨v.pfx, v.major, v.minor,
            (match v.micro with
             | some x => some x
             | none => if v.format.micro.isSome then some 0 else none),
            some "build.1".toList, v.format⟩) ∧
      (∀ m key value, v.modifier = some m →
        getKeyValuePair (some m) = some (key, value) →
        Calver.increment clock v .CALENDAR = .ok
          ⟨v.pfx, v.major, v.minor,
            (match v.micro with
             | some x => some x
             | none => if v.format.micro.isSome then some 0 else none),
            some (key ++ '.' :: natToChars (value + 1)), v.format⟩) ∧
      (∀ m, v.modifier = some m → getKeyValuePair (some m) = none →
        Calver.increment clock v .CALENDAR =
          .error .cannotIncrementModifier)) := by
  have hfield : ∀ (tokv : CalToken) (a : Nat),
      (if tokv = CalToken.MICRO then 0
       else if tokv = CalToken.MINOR then 0
       else if tokv = CalToken.MAJOR then 0 else a) =
      (if tokv.isCore then 0 else a) := by
    intro tokv a
    cases tokv <;> simp [CalToken.isCore]
  have hfieldO : ∀ (mt : Option CalToken) (a : Option Nat),
      (if mt = some CalToken.MICRO then some 0
       else if mt = some CalToken.MINOR then some 0
       else if mt = some CalToken.MAJOR then some 0 else a) =
      (match mt with
       | some t => if t.isCore then some 0 else a
       | none => a) := by
    intro mt a
    rcases mt with _ | t
    · simp
    · cases t <;> simp [CalToken.isCore]
  constructor
  · intro hne
    have hstep : Calver.increment clock v .CALENDAR = .ok
        { Calver.setSlotZero (Calver.setSlotZero (Calver.setSlotZero
            (calendarRecompute clock v) .MAJOR) .MINOR) .MICRO with
          modifier := none } := by
      simp only [Calver.increment, construct_eq_calendarRecompute,
        isEqualTo_calendarRecompute, decide_eq_false hne]
    rw [hstep]
    refine congrArg Except.ok ?_
    dsimp only
    rcases hCR : calendarRecompute clock v with ⟨p, a, b, c, mo, f⟩
    have hf : v.format = f := congrArg Calver.CalVer.format hCR
    subst hf
    have hp : v.pfx = p := congrArg Calver.CalVer.pfx hCR
    subst hp
    rw [setSlotZero_char ⟨v.pfx, a, b, c, mo, v.format⟩ CalToken.MAJOR
      (huniq _)]
    dsimp only
    rw [setSlotZero_char ⟨v.pfx,
      (if v.format.major = CalToken.MAJOR then 0 else a),
      (if v.format.minor = CalToken.MAJOR then 0 else b),
      (if v.format.micro = some CalToken.MAJOR then some 0 else c),
      mo, v.format⟩ CalToken.MINOR (huniq _)]
    dsimp only
    rw [setSlotZero_char ⟨v.pfx,
      (if v.format.major = CalToken.MINOR then 0
       else if v.format.major = CalToken.MAJOR then 0 else a),
      (if v.format.minor = CalToken.MINOR then 0
       else if v.format.minor = CalToken.MAJOR then 0 else b),
      (if v.format.micro = some CalToken.MINOR then some 0
       else if v.format.micro = some CalToken.MAJOR then some 0 else c),
      mo, v.format⟩ CalToken.MICRO (huniq _)]
    dsimp only
    rw [hfield, hfield, hfieldO]
  · intro heq
    have hstep : Calver.increment clock v .CALENDAR =
        (do
          let mm ← Calver.incrementModifier v
          Except.ok (Calver.construct v.format v.pfx (some v.major)
            (some v.minor) v.micro (some mm))) := by
      simp only [Calver.increment, construct_eq_calendarRecompute,
        isEqualTo_calendarRecompute, decide_eq_true heq]
    refine ⟨fun hmod => ?_, fun m key value hmod hkv => ?_,
      fun m hmod hkv => ?_⟩
    · rw [hstep]
      simp only [Calver.incrementModifier, hmod]
      rfl
    · rw [hstep]
      simp only [Calver.incrementModifier, hmod, hkv]
      rfl
    · rw [hstep]
      simp only [Calver.incrementModifier, hmod, hkv]
      rfl

/-- Witness for C5 at concrete versions (stale year 2022 under clock year
2023 forces the reset; same year with no modifier appends `build.1`). -/
theorem c5_calendar_increment_witness :
    Calver.increment ⟨2023, 0, 1, 1⟩
      ⟨none, 2022, 5, none, some "rc.3".toList,
        ⟨CalToken.YYYY, CalToken.MINOR, none⟩⟩ .CALENDAR =
      .ok ⟨none, 2023, 0, none, none,
        ⟨CalToken.YYYY, CalToken.MINOR, none⟩⟩ ∧
    Calver.increment ⟨2023, 0, 1, 1⟩
      ⟨none, 2023, 5, none, none,
        ⟨CalToken.YYYY, CalToken.MINOR, none⟩⟩ .CALENDAR =
      .ok ⟨none, 2023, 5, none, some "build.1".toList,
        ⟨CalToken.YYYY, CalToken.MINOR, none⟩⟩ := by
  constructor
  · have h := (c5_calendar_increment ⟨2023, 0, 1, 1⟩
      ⟨none, 2022, 5, none, some "rc.3".toList,
        ⟨CalToken.YYYY, CalToken.MINOR, none⟩⟩
      (by intro t; cases t <;> decide)).1 (by decide)
    exact h.trans (by decide)
  · have h := ((c5_calendar_increment ⟨2023, 0, 1, 1⟩
      ⟨none, 2023, 5, none, none,
        ⟨CalToken.YYYY, CalToken.MINOR, none⟩⟩
      (by intro t; cases t <;> decide)).2 (by decide)).1 rfl
    exact h.trans (by decide)

/-! ## C1 -/

/-- C1 counterexample: the compiled `YYYY.MINOR` regex contains an
unescaped dot, so `"2023x1"` is accepted — and renders back as
`"2023.1"`, not `"2023x1"`. -/
theorem c1_round_trip_counterexample :
    (CalverChain.fromString ⟨CalToken.YYYY, CalToken.MINOR, none⟩
        "2023x1".toList none).map CalverChain.toString =
      some "2023.1".toList ∧
    "2023.1".toList ≠ "2023x1".toList := by
  refine ⟨by decide, by decide⟩

theorem takeWhile_all {p : Char → Bool} (l : List Char) (h : l.all p = true) :
    l.takeWhile p = l := by
  induction l with
  | nil => rfl
  | cons c t ih =>
    simp only [List.all_cons, Bool.and_eq_true] at h
    simp [List.takeWhile_cons, h.1, ih h.2]

theorem dropWhile_all {p : Char → Bool} (l : List Char) (h : l.all p = true) :
    l.dropWhile p = [] := by
  induction l with
  | nil => rfl
  | cons c t ih =>
    simp only [List.all_cons, Bool.and_eq_true] at h
    simp [List.dropWhile_cons, h.1, ih h.2]

theorem takeWhile_append_all {p : Char → Bool} (l r : List Char)
    (h : l.all p = true) : (l ++ r).takeWhile p = l ++ r.takeWhile p := by
  induction l with
  | nil => rfl
  | cons c t ih =>
    simp only [List.all_cons, Bool.and_eq_true] at h
    simp [List.takeWhile_cons, h.1, ih h.2]

theorem dropWhile_append_all {p : Char → Bool} (l r : List Char)
    (h : l.all p = true) : (l ++ r).dropWhile p = r.dropWhile p := by
  induction l with
  | nil => rfl
  | cons c t ih =>
    simp only [List.all_cons, Bool.and_eq_true] at h
    simp [List.dropWhile_cons, h.1, ih h.2]

theorem takeWhile_nil_of_head {p : Char → Bool} (r : List Char)
    (h : ∀ c, r.head? = some c → p c = false) : r.takeWhile p = [] := by
  cases r with
  | nil => rfl
  | cons c t => simp [List.takeWhile_cons, h c rfl]

theorem dropWhile_id_of_head {p : Char → Bool} (r : List Char)
    (h : ∀ c, r.head? = some c → p c = false) : r.dropWhile p = r := by
  cases r with
  | nil => rfl
  | cons c t => simp [List.dropWhile_cons, h c rfl]

theorem decimalNumeric_digits (s : List Char) (hne : s ≠ [])
    (hd : allDigits s = true) : decimalNumeric s = true := by
  simp only [decimalNumeric, takeWhile_all s hd, dropWhile_all s hd]
  simp [hne]

theorem decimalVal_digits (s : List Char) (hd : allDigits s = true) :
    decimalVal s = (charsToNat s : Int) := by
  simp only [decimalVal, takeWhile_all s hd, dropWhile_all s hd]

theorem jsIsNumeric_digits (s : List Char) (hne : s ≠ [])
    (hd : allDigits s = true) : jsIsNumeric s = true := by
  rw [jsIsNumeric.eq_def, if_neg hne, if_neg (by
    simp only [Bool.or_eq_true, decide_eq_true_eq]
    rintro (rfl | rfl) <;> exact absurd hd (by decide))]
  split
  · rename_i x rest
    have hxd : isDigitChar x = true := by
      simp only [allDigits, List.all_cons, Bool.and_eq_true] at hd
      exact hd.2.1
    rw [if_neg (by
        simp only [Bool.or_eq_true, decide_eq_true_eq]
        rintro (rfl | rfl) <;> exact absurd hxd (by decide)),
      if_neg (by
        simp only [Bool.or_eq_true, decide_eq_true_eq]
        rintro (rfl | rfl) <;> exact absurd hxd (by decide)),
      if_neg (by
        simp only [Bool.or_eq_true, decide_eq_true_eq]
        rintro (rfl | rfl) <;> exact absurd hxd (by decide))]
    exact decimalNumeric_digits _ hne hd
  · rename_i t
    have : isDigitChar '-' = true := by
      simp only [allDigits, List.all_cons, Bool.and_eq_true] at hd
      exact hd.1
    exact absurd this (by decide)
  · exact decimalNumeric_digits _ hne hd

theorem jsNumberVal_digits (s : List Char) (hne : s ≠ [])
    (hd : allDigits s = true) : jsNumberVal s = (charsToNat s : Int) := by
  rw [jsNumberVal.eq_def, if_neg hne, if_neg (by
    simp only [Bool.or_eq_true, decide_eq_true_eq]
    rintro (rfl | rfl) <;> exact absurd hd (by decide))]
  split
  · rename_i x rest
    have hxd : isDigitChar x = true := by
      simp only [allDigits, List.all_cons, Bool.and_eq_true] at hd
      exact hd.2.1
    rw [if_neg (by
        simp only [Bool.or_eq_true, decide_eq_true_eq]
        rintro (rfl | rfl) <;> exact absurd hxd (by decide)),
      if_neg (by
        simp only [Bool.or_eq_true, decide_eq_true_eq]
        rintro (rfl | rfl) <;> exact absurd hxd (by decide)),
      if_neg (by
        simp only [Bool.or_eq_true, decide_eq_true_eq]
        rintro (rfl | rfl) <;> exact absurd hxd (by decide))]
    exact decimalVal_digits _ hd
  · rename_i t
    have : isDigitChar '-' = true := by
      simp only [allDigits, List.all_cons, Bool.and_eq_true] at hd
      exact hd.1
    exact absurd this (by decide)
  · exact decimalVal_digits _ hd

theorem joinChar_singleton (sep : Char) (x : List Char) :
    joinChar sep [x] = x := by
  simp [joinChar, List.intercalate, List.intersperse]

theorem joinChar_cons₂ (sep : Char) (x y : List Char) (t : List (List Char)) :
    joinChar sep (x :: y :: t) = x ++ sep :: joinChar sep (y :: t) := by
  simp [joinChar, List.intercalate, List.intersperse]

theorem joinChar_cons_ne (sep : Char) (x : List Char) (l : List (List Char))
    (h : l ≠ []) : joinChar sep (x :: l) = x ++ sep :: joinChar sep l := by
  cases l with
  | nil => exact absurd rfl h
  | cons y t => exact joinChar_cons₂ sep x y t

theorem mem_joinChar (sep : Char) (l : List (List Char)) (c : Char)
    (h : c ∈ joinChar sep l) : c = sep ∨ ∃ x ∈ l, c ∈ x := by
  induction l with
  | nil => simp [joinChar, List.intercalate] at h
  | cons x t ih =>
    cases t with
    | nil =>
      rw [joinChar_singleton] at h
      exact Or.inr ⟨x, List.mem_cons_self x [], h⟩
    | cons y t' =>
      rw [joinChar_cons₂] at h
      rcases List.mem_append.mp h with hx | hrest
      · exact Or.inr ⟨x, List.mem_cons_self x _, hx⟩
      · rcases List.mem_cons.mp hrest with rfl | hjoin
        · exact Or.inl rfl
        · rcases ih hjoin with hsep | ⟨z, hz, hcz⟩
          · exact Or.inl hsep
          · exact Or.inr ⟨z, List.mem_cons_of_mem x hz, hcz⟩

theorem getModifiersAux_ne_nil :
    ∀ (segs : List (List Char)) (pending : Option Modifier),
      segs ≠ [] ∨ pending.isSome = true →
      getModifiersAux segs pending ≠ [] := by
  intro segs
  induction segs with
  | nil =>
    intro pending h
    rcases pending with _ | m
    · rcases h with h | h
      · exact absurd rfl h
      · exact absurd h (by decide)
    · simp [getModifiersAux]
  | cons e rest ih =>
    intro pending _
    by_cases he : jsIsNumeric e = false
    · have htail := ih (some ⟨some e, 0, 0⟩) (Or.inr rfl)
      rcases pending with _ | m <;> simp [getModifiersAux, he, htail]
    · rcases pending with _ | m <;> simp [getModifiersAux, he]

theorem intToChars_ofNat (n : Nat) : intToChars (n : Int) = natToChars n := by
  simp [intToChars]

theorem renderModifier_ident (id : List Char) (hid : id ≠ []) :
    renderModifier ⟨some id, 0, 0⟩ = id := by
  simp [renderModifier, hid]

theorem renderModifier_num (v : Nat) (len : Nat) :
    renderModifier ⟨none, (v : Int), len⟩ = natToChars v := by
  simp [renderModifier, intToChars_ofNat]

theorem renderModifier_pair (id : List Char) (hid : id ≠ []) (v : Nat)
    (len : Nat) (hlen : 0 < len) :
    renderModifier ⟨some id, (v : Int), len⟩ = id ++ '.' :: natToChars v := by
  simp [renderModifier, hid, hlen, intToChars_ofNat]

theorem getModifiersAux_render :
    ∀ segs : List (List Char),
      (∀ seg ∈ segs, jsIsNumeric seg = true →
        allDigits seg = true ∧ canonicalDigits seg = true) →
      (joinChar '.' ((getModifiersAux segs none).map renderModifier) =
        joinChar '.' segs ∧
      ∀ id : List Char, id ≠ [] → jsIsNumeric id = false →
        joinChar '.' ((getModifiersAux segs (some ⟨some id, 0, 0⟩)).map
          renderModifier) = joinChar '.' (id :: segs)) := by
  intro segs
  induction segs with
  | nil =>
    intro _
    refine ⟨rfl, fun id hid _ => ?_⟩
    simp only [getModifiersAux, List.map_cons, List.map_nil,
      renderModifier_ident id hid]
  | cons e rest ih =>
    intro H
    have He := H e (List.mem_cons_self e rest)
    have Hrest : ∀ seg ∈ rest, jsIsNumeric seg = true →
        allDigits seg = true ∧ canonicalDigits seg = true :=
      fun seg hs => H seg (List.mem_cons_of_mem e hs)
    have ihR := ih Hrest
    by_cases he : jsIsNumeric e = true
    · obtain ⟨hde, hce⟩ := He he
      have hene : e ≠ [] := by
        simp only [canonicalDigits, Bool.and_eq_true, decide_eq_true_eq] at hce
        exact hce.2
      have hval : jsNumberVal e = (charsToNat e : Int) :=
        jsNumberVal_digits e hene hde
      have hrender : natToChars (charsToNat e) = e :=
        natToChars_charsToNat e hce
      constructor
      · rw [getModifiersAux, if_neg (by simp [he])]
        simp only [List.map_cons, hval, renderModifier_num, hrender]
        rcases rest with _ | ⟨r, rs⟩
        · simp [getModifiersAux]
        · have hne := getModifiersAux_ne_nil (r :: rs) none (Or.inl (by simp))
          rw [joinChar_cons_ne '.' e
              (List.map renderModifier (getModifiersAux (r :: rs) none))
              (by simpa using hne),
            joinChar_cons_ne '.' e (r :: rs) (by simp), ihR.1]
      · intro id hid hidn
        rw [getModifiersAux, if_neg (by simp [he])]
        simp only [List.map_cons, hval,
          renderModifier_pair id hid (charsToNat e) e.length
            (by simpa [List.length_pos] using hene), hrender]
        rcases rest with _ | ⟨r, rs⟩
        · simp only [getModifiersAux, List.map_nil]
          rw [joinChar_singleton, joinChar_cons₂, joinChar_singleton]
        · have hne := getModifiersAux_ne_nil (r :: rs) none (Or.inl (by simp))
          rw [joinChar_cons_ne '.' (id ++ '.' :: e)
              (List.map renderModifier (getModifiersAux (r :: rs) none))
              (by simpa using hne), ihR.1,
            joinChar_cons₂, joinChar_cons_ne '.' e (r :: rs) (by simp)]
          simp
    · have hene : e ≠ [] := by
        rintro rfl
        exact he rfl
      have he' : jsIsNumeric e = false := by
        cases h : jsIsNumeric e
        · rfl
        · exact absurd h he
      constructor
      · rw [getModifiersAux, if_pos he']
        simp only [List.nil_append]
        exact ihR.2 e hene he'
      · intro id hid _
        rw [getModifiersAux, if_pos he']
        have hne := getModifiersAux_ne_nil rest (some ⟨some e, 0, 0⟩)
          (Or.inr rfl)
        simp only [List.cons_append, List.nil_append, List.map_cons,
          renderModifier_ident id hid]
        rw [joinChar_cons_ne '.' id
            (List.map renderModifier
              (getModifiersAux rest (some ⟨some e, 0, 0⟩)))
            (by simpa using hne), ihR.2 e hene he',
          joinChar_cons_ne '.' id (e :: rest) (by simp)]

theorem modifiersToString_getModifiers (pre : List Char) (hne : pre ≠ [])
    (H : ∀ seg ∈ splitOnChar '.' pre, jsIsNumeric seg = true →
      allDigits seg = true ∧ canonicalDigits seg = true) :
    modifiersToString (getModifiers (some pre)) = '-' :: pre := by
  rw [getModifiers]
  simp only [if_neg hne]
  rw [modifiersToString,
    if_neg (getModifiersAux_ne_nil _ _ (Or.inl (splitOnChar_ne_nil '.' pre))),
    (getModifiersAux_render _ H).1, joinChar_splitOnChar]

theorem validPre_no_plus (pr : List Char) (h : validPre pr = true) :
    ∀ c ∈ pr, c ≠ '+' := by
  intro c hc
  rw [← joinChar_splitOnChar '.' pr] at hc
  rcases mem_joinChar _ _ _ hc with rfl | ⟨seg, hseg, hcseg⟩
  · decide
  · simp only [validPre, List.all_eq_true] at h
    have hv := h seg hseg
    simp only [validPreIdent, Bool.and_eq_true, List.all_eq_true] at hv
    have hcch := hv.1.2 c hcseg
    rintro rfl
    exact absurd hcch (by decide)

theorem parseNumCore_canonical (M : Nat) (r : List Char)
    (hr : ∀ c, r.head? = some c → isDigitChar c = false) :
    parseNumCore (natToChars M ++ r) = some (M, r) := by
  by_cases hM : M = 0
  · subst hM
    have h0 : natToChars 0 = ['0'] := by decide
    rw [h0]
    simp [parseNumCore]
  · obtain ⟨d, ds, hds⟩ : ∃ d ds, natToChars M = d :: ds := by
      rcases h : natToChars M with _ | ⟨d, ds⟩
      · exact absurd h (natToChars_ne_nil M)
      · exact ⟨d, ds, rfl⟩
    have hall : allDigits (d :: ds) = true := hds ▸ allDigits_natToChars M
    have hcanon : canonicalDigits (d :: ds) = true :=
      hds ▸ canonicalDigits_natToChars M
    have hdd : isDigitChar d = true := by
      simp only [allDigits, List.all_cons, Bool.and_eq_true] at hall
      exact hall.1
    have hdsall : ds.all isDigitChar = true := by
      simp only [allDigits, List.all_cons, Bool.and_eq_true] at hall
      exact hall.2
    have hd0 : d ≠ '0' := by
      intro h0
      subst h0
      simp only [canonicalDigits, Bool.and_eq_true, Bool.or_eq_true,
        decide_eq_true_eq, ne_eq] at hcanon
      rcases hcanon.1.2 with h1 | h2
      · have hM0 : natToChars M = ['0'] := by rw [hds, h1]
        have := charsToNat_natToChars M
        rw [hM0] at this
        exact hM (by simpa using this.symm)
      · exact h2 rfl
    rw [hds, List.cons_append, parseNumCore]
    rw [if_neg hd0, if_pos hdd,
      takeWhile_append_all ds r hdsall, takeWhile_nil_of_head r hr,
      dropWhile_append_all ds r hdsall, dropWhile_id_of_head r hr,
      List.append_nil]
    rw [show (d :: ds : List Char) = natToChars M from hds.symm,
      charsToNat_natToChars]

theorem expectChar_cons (c : Char) (r : List Char) :
    expectChar c (c :: r) = some r := by
  simp [expectChar]

/-- Claim-side description of the `-prerelease+build` tail of a canonical
SemVer string. -/
def semverTail (pre bld : Option (List Char)) : List Char :=
  (match pre with | some pr => '-' :: pr | none => []) ++
    (match bld with | some b => '+' :: b | none => [])

/-- Claim-side description of a canonical SemVer string: prefix, the three
canonically-rendered core numbers, then the optional tail. -/
def semverCanonicalString (p : List Char) (M m q : Nat)
    (pre bld : Option (List Char)) : List Char :=
  p ++ (natToChars M ++ '.' :: (natToChars m ++ '.' :: (natToChars q ++
    semverTail pre bld)))

theorem semver_core_parse (p : List Char) (M m q : Nat) (r5 : List Char)
    (hhead : ∀ c, r5.head? = some c → isDigitChar c = false)
    (pre bld : Option (List Char))
    (htail : parseSemTail r5 = some (pre, bld)) :
    SemVer.fromString
      (p ++ (natToChars M ++ '.' :: (natToChars m ++ '.' :: (natToChars q ++
        r5)))) (some p) =
      some ⟨some p, M, m, q, getModifiers pre, bld⟩ := by
  have hpfx : p.isPrefixOf
      (p ++ (natToChars M ++ '.' :: (natToChars m ++ '.' :: (natToChars q ++
        r5)))) = true :=
    List.isPrefixOf_iff_prefix.mpr (List.prefix_append p _)
  rw [SemVer.fromString]
  dsimp only
  rw [if_pos hpfx, List.drop_left]
  simp only [Option.bind_eq_bind, Option.some_bind]
  rw [parseNumCore_canonical M _ (by
    intro c h
    injection h with h
    subst h
    decide)]
  simp only [Option.some_bind]
  rw [expectChar_cons]
  simp only [Option.some_bind]
  rw [parseNumCore_canonical m _ (by
    intro c h
    injection h with h
    subst h
    decide)]
  simp only [Option.some_bind]
  rw [expectChar_cons]
  simp only [Option.some_bind]
  rw [parseNumCore_canonical q _ hhead]
  simp only [Option.some_bind]
  rw [htail]
  simp only [Option.some_bind]

theorem semver_canonical_roundtrip (p : List Char) (M m q : Nat)
    (pre bld : Option (List Char))
    (hpre : ∀ pr, pre = some pr → pr ≠ [] ∧ validPre pr = true ∧
      (splitOnChar '.' pr).all
        (fun seg => !jsIsNumeric seg || allDigits seg) = true)
    (hbld : ∀ b, bld = some b → b ≠ [] ∧ validBuild b = true) :
    (SemVer.fromString (semverCanonicalString p M m q pre bld)
        (some p)).map SemVer.toString =
      some (semverCanonicalString p M m q pre bld) := by
  have hhead : ∀ c, (semverTail pre bld).head? = some c →
      isDigitChar c = false := by
    rcases pre with _ | pr <;> rcases bld with _ | b <;>
      intro c h
    · simp [semverTail] at h
    · rw [show semverTail none (some b) = '+' :: b from rfl] at h
      injection h with h
      subst h
      decide
    · rw [show semverTail (some pr) none = '-' :: pr ++ [] from rfl,
        List.cons_append] at h
      injection h with h
      subst h
      decide
    · rw [show semverTail (some pr) (some b) = '-' :: pr ++ '+' :: b from rfl,
        List.cons_append] at h
      injection h with h
      subst h
      decide
  have htail : parseSemTail (semverTail pre bld) = some (pre, bld) := by
    rcases pre with _ | pr
    · rcases bld with _ | b
      · rfl
      · obtain ⟨hbne, hbv⟩ := hbld b rfl
        rw [show semverTail none (some b) = '+' :: b from rfl]
        simp [parseSemTail, hbv]
    · obtain ⟨hprne, hprv, hprn⟩ := hpre pr rfl
      have hallne : pr.all (fun c => decide (c ≠ '+')) = true := by
        simp only [List.all_eq_true, decide_eq_true_eq]
        exact validPre_no_plus pr hprv
      rcases bld with _ | b
      · rw [show semverTail (some pr) none = '-' :: pr ++ [] from rfl,
          List.append_nil]
        simp only [parseSemTail]
        rw [takeWhile_all pr hallne, List.drop_length, if_pos hprv]
      · obtain ⟨hbne, hbv⟩ := hbld b rfl
        rw [show semverTail (some pr) (some b) = '-' :: pr ++ '+' :: b
            from rfl, List.cons_append]
        simp only [parseSemTail]
        rw [takeWhile_append_all pr _ hallne,
          takeWhile_nil_of_head _ (by
            intro c h
            injection h with h
            subst h
            decide),
          List.append_nil, List.drop_left, if_pos hprv]
        simp [hbv]
  rw [semverCanonicalString,
    semver_core_parse p M m q (semverTail pre bld) hhead pre bld htail,
    Option.map_some']
  congr 1
  rw [SemVer.toString]
  dsimp only
  rcases pre with _ | pr
  · rcases bld with _ | b
    · simp [semverTail, getModifiers, getModifiersAux, modifiersToString]
    · obtain ⟨hbne, hbv⟩ := hbld b rfl
      simp [semverTail, hbne, getModifiers, getModifiersAux,
        modifiersToString]
  · obtain ⟨hprne, hprv, hprn⟩ := hpre pr rfl
    have H : ∀ seg ∈ splitOnChar '.' pr, jsIsNumeric seg = true →
        allDigits seg = true ∧ canonicalDigits seg = true := by
      intro seg hs hnum
      simp only [List.all_eq_true] at hprn
      have hex := hprn seg hs
      simp only [Bool.or_eq_true, Bool.not_eq_true'] at hex
      have hdig : allDigits seg = true := by
        rcases hex with h | h
        · rw [hnum] at h
          cases h
        · exact h
      refine ⟨hdig, ?_⟩
      simp only [validPre, List.all_eq_true] at hprv
      have hv := hprv seg hs
      simp only [validPreIdent, Bool.and_eq_true, Bool.or_eq_true,
        Bool.not_eq_true'] at hv
      rcases hv.2 with h | h
      · rw [hdig] at h
        cases h
      · exact h
    rw [modifiersToString_getModifiers pr hprne H]
    rcases bld with _ | b
    · simp [semverTail]
    · obtain ⟨hbne, hbv⟩ := hbld b rfl
      simp [semverTail, hbne]

theorem descRange_cons (lo hi : Nat) (h1 : 1 ≤ hi) (h2 : lo ≤ hi) :
    descRange lo hi = hi :: descRange lo (hi - 1) := by
  unfold descRange
  have e1 : hi + 1 - lo = (hi - lo) + 1 := by omega
  have e2 : hi - 1 + 1 - lo = hi - lo := by omega
  rw [e1, e2, List.range'_concat]
  have e3 : lo + 1 * (hi - lo) = hi := by omega
  rw [e3]
  simp

theorem firstSome_descRange {β : Type} (f : Nat → Option β) (lo k : Nat)
    (r : β) (h1 : 1 ≤ lo) (hlo : lo ≤ k) (hit : f k = some r) :
    ∀ hi, k ≤ hi → (∀ j, k < j → j ≤ hi → f j = none) →
      firstSome f (descRange lo hi) = some r := by
  intro hi
  induction hi with
  | zero =>
    intro hk _
    omega
  | succ n ih =>
    intro hk hbig
    rw [descRange_cons lo (n + 1) (by omega) (by omega)]
    simp only [Nat.add_sub_cancel]
    by_cases hkn : k = n + 1
    · subst hkn
      simp [firstSome, hit]
    · have hnone : f (n + 1) = none := hbig _ (by omega) (by omega)
      simp only [firstSome, hnone]
      exact ih (by omega) (fun j hj1 hj2 => hbig j hj1 (by omega))

theorem take_guard_false (g : List Char) (c : Char) (t : List Char)
    (hc : isDigitChar c = false) (j : Nat) (hj : g.length < j) :
    ¬(((g ++ c :: t).take j).length = j ∧
      allDigits ((g ++ c :: t).take j) = true) := by
  rintro ⟨h1, h2⟩
  by_cases hjs : j ≤ (g ++ c :: t).length
  · rw [List.take_append_eq_append_take,
      List.take_of_length_le (le_of_lt hj)] at h2
    obtain ⟨d, hd⟩ : ∃ d, j - g.length = d + 1 := ⟨j - g.length - 1, by omega⟩
    rw [hd, List.take_succ_cons] at h2
    simp only [allDigits, List.all_append, List.all_cons,
      Bool.and_eq_true] at h2
    rw [hc] at h2
    exact absurd h2.2.1 (by simp)
  · rw [List.length_take] at h1
    have hle : j ≤ (g ++ c :: t).length := min_eq_left_iff.mp h1
    exact hjs hle

theorem matchLast_canonical (b : Nat × Option Nat) (g modS : List Char)
    (mod : Option (List Char))
    (hd : allDigits g = true) (hlo1 : 1 ≤ b.1) (hlo : b.1 ≤ g.length)
    (hhi : ∀ hi, b.2 = some hi → g.length ≤ hi)
    (hhead : ∀ cc, modS.head? = some cc → isDigitChar cc = false)
    (hparse : parseModTail modS = some mod) :
    matchLast b (g ++ modS) = some (g, mod) := by
  rw [matchLast]
  refine firstSome_descRange _ b.1 g.length (g, mod) hlo1 hlo ?_ _ ?_ ?_
  · dsimp only
    rw [List.take_left, List.drop_left, if_pos ⟨rfl, hd⟩, hparse]
  · cases hb2 : b.2 with
    | none =>
      simp only [Option.getD, List.length_append]
      omega
    | some hi =>
      simpa only [Option.getD] using hhi hi hb2
  · intro j hj1 hj2
    dsimp only
    rcases modS with _ | ⟨c0, t0⟩
    · rw [if_neg (by
        rintro ⟨hc1, -⟩
        rw [List.length_take] at hc1
        have hle := min_eq_left_iff.mp hc1
        rw [List.append_nil] at hle
        omega)]
    · have hc0 : isDigitChar c0 = false := hhead c0 rfl
      rw [if_neg (take_guard_false g c0 t0 hc0 j hj1)]

theorem matchTwoGroups_canonical (b1 b2 : Nat × Option Nat)
    (g1 rest : List Char) (g2 : List Char) (mm : Option (List Char))
    (hd1 : allDigits g1 = true) (hlo1 : 1 ≤ b1.1) (hlo : b1.1 ≤ g1.length)
    (hhi : ∀ hi, b1.2 = some hi → g1.length ≤ hi)
    (hinner : matchLast b2 rest = some (g2, mm)) :
    matchTwoGroups b1 b2 (g1 ++ '.' :: rest) = some (g1, g2, mm) := by
  rw [matchTwoGroups]
  refine firstSome_descRange _ b1.1 g1.length (g1, g2, mm) hlo1 hlo ?_ _ ?_ ?_
  · dsimp only
    rw [List.take_left, List.drop_left, if_pos ⟨rfl, hd1⟩]
    dsimp only
    rw [hinner]
  · cases hb2 : b1.2 with
    | none =>
      simp only [Option.getD, List.length_append]
      omega
    | some hi =>
      simpa only [Option.getD] using hhi hi hb2
  · intro j hj1 hj2
    dsimp only
    rw [if_neg (take_guard_false g1 '.' rest (by decide) j hj1)]

theorem matchThreeGroups_canonical (b1 b2 b3 : Nat × Option Nat)
    (g1 rest : List Char) (g2 g3 : List Char) (mm : Option (List Char))
    (hd1 : allDigits g1 = true) (hlo1 : 1 ≤ b1.1) (hlo : b1.1 ≤ g1.length)
    (hhi : ∀ hi, b1.2 = some hi → g1.length ≤ hi)
    (hinner : matchTwoGroups b2 b3 rest = some (g2, g3, mm)) :
    matchThreeGroups b1 b2 b3 (g1 ++ '.' :: rest) = some (g1, g2, g3, mm) := by
  rw [matchThreeGroups]
  refine firstSome_descRange _ b1.1 g1.length (g1, g2, g3, mm) hlo1 hlo
    ?_ _ ?_ ?_
  · dsimp only
    rw [List.take_left, List.drop_left, if_pos ⟨rfl, hd1⟩]
    dsimp only
    rw [hinner]
  · cases hb2 : b1.2 with
    | none =>
      simp only [Option.getD, List.length_append]
      omega
    | some hi =>
      simpa only [Option.getD] using hhi hi hb2
  · intro j hj1 hj2
    dsimp only
    rw [if_neg (take_guard_false g1 '.' rest (by decide) j hj1)]

/-- Claim-side description of a canonical capture-group string for a token:
all digits, length within the token's regex bounds, and — for the tokens
whose rendering is the bare decimal (MAJOR/MINOR/MICRO) or the unpadded
low digits (YY/MM/WW/DD) — a canonical decimal of at most the rendered
width. -/
def canonicalGroup (t : CalToken) (g : List Char) : Bool :=
  allDigits g && decide ((tokenBounds t).1 ≤ g.length) &&
    (match (tokenBounds t).2 with
     | some hi => decide (g.length ≤ hi)
     | none => true) &&
    (match t with
     | .MAJOR | .MINOR | .MICRO => canonicalDigits g
     | .YY | .MM | .WW | .DD => canonicalDigits g && decide (g.length ≤ 2)
     | _ => true)

theorem padStart_takeLast_canonical (g : List Char) (k : Nat)
    (hd : allDigits g = true) (hlen : g.length = k) (hk : 1 ≤ k) :
    padStart k '0' (takeLast k (natToChars (charsToNat g))) = g := by
  have hne : g ≠ [] := by
    intro h0
    subst h0
    simp at hlen
    omega
  have hlt : charsToNat g < 10 ^ k := by
    rw [← hlen]
    exact charsToNat_lt g hd
  have hle := natToChars_length_le (charsToNat g) k hlt hk
  rw [takeLast_of_le _ _ hle, ← hlen]
  exact padStart_natToChars g hd hne

theorem padStart_only_canonical (g : List Char) (k : Nat)
    (hd : allDigits g = true) (hlen : g.length = k) (hk : 1 ≤ k) :
    padStart k '0' (natToChars (charsToNat g)) = g := by
  have hne : g ≠ [] := by
    intro h0
    subst h0
    simp at hlen
    omega
  rw [← hlen]
  exact padStart_natToChars g hd hne

theorem takeLast_canonical (g : List Char) (k : Nat)
    (hc : canonicalDigits g = true) (hlen : g.length ≤ k) :
    takeLast k (natToChars (charsToNat g)) = g := by
  rw [natToChars_charsToNat g hc]
  exact takeLast_of_le _ _ hlen

theorem formatVersionCore_canonical (t : CalToken) (g : List Char)
    (h : canonicalGroup t g = true) : formatVersionCore (charsToNat g) t = g := by
  cases t <;>
    simp only [canonicalGroup, tokenBounds, Bool.and_eq_true,
      decide_eq_true_eq] at h
  case YYYY =>
    rw [formatVersionCore, if_neg (by decide), if_pos rfl]
    exact padStart_only_canonical g 4 h.1.1.1 (by omega) (by omega)
  case YY =>
    rw [formatVersionCore, if_neg (by decide), if_neg (by decide),
      if_neg (by decide), if_neg (by decide)]
    exact takeLast_canonical g 2 h.2.1 h.2.2
  case zeroY =>
    rw [formatVersionCore, if_neg (by decide), if_neg (by decide),
      if_pos rfl]
    exact padStart_takeLast_canonical g 3 h.1.1.1 (by omega) (by omega)
  case MM =>
    rw [formatVersionCore, if_neg (by decide), if_neg (by decide),
      if_neg (by decide), if_neg (by decide)]
    exact takeLast_canonical g 2 h.2.1 h.2.2
  case zeroM =>
    rw [formatVersionCore, if_neg (by decide), if_neg (by decide),
      if_neg (by decide), if_pos (by decide)]
    exact padStart_takeLast_canonical g 2 h.1.1.1 (by omega) (by omega)
  case WW =>
    rw [formatVersionCore, if_neg (by decide), if_neg (by decide),
      if_neg (by decide), if_neg (by decide)]
    exact takeLast_canonical g 2 h.2.1 h.2.2
  case zeroW =>
    rw [formatVersionCore, if_neg (by decide), if_neg (by decide),
      if_neg (by decide), if_pos (by decide)]
    exact padStart_takeLast_canonical g 2 h.1.1.1 (by omega) (by omega)
  case DD =>
    rw [formatVersionCore, if_neg (by decide), if_neg (by decide),
      if_neg (by decide), if_neg (by decide)]
    exact takeLast_canonical g 2 h.2.1 h.2.2
  case zeroD =>
    rw [formatVersionCore, if_neg (by decide), if_neg (by decide),
      if_neg (by decide), if_pos (by decide)]
    exact padStart_takeLast_canonical g 2 h.1.1.1 (by omega) (by omega)
  case MAJOR =>
    rw [formatVersionCore, if_pos (by decide)]
    exact natToChars_charsToNat g h.2
  case MINOR =>
    rw [formatVersionCore, if_pos (by decide)]
    exact natToChars_charsToNat g h.2
  case MICRO =>
    rw [formatVersionCore, if_pos (by decide)]
    exact natToChars_charsToNat g h.2

theorem tokenBounds_lo_pos (t : CalToken) : 1 ≤ (tokenBounds t).1 := by
  cases t <;> decide

theorem canonicalGroup_allDigits (t : CalToken) (g : List Char)
    (h : canonicalGroup t g = true) : allDigits g = true := by
  simp only [canonicalGroup, Bool.and_eq_true] at h
  exact h.1.1.1

theorem canonicalGroup_lo (t : CalToken) (g : List Char)
    (h : canonicalGroup t g = true) : (tokenBounds t).1 ≤ g.length := by
  simp only [canonicalGroup, Bool.and_eq_true, decide_eq_true_eq] at h
  exact h.1.1.2

theorem canonicalGroup_hi (t : CalToken) (g : List Char)
    (h : canonicalGroup t g = true) :
    ∀ hi, (tokenBounds t).2 = some hi → g.length ≤ hi := by
  intro hi hhi
  simp only [canonicalGroup, Bool.and_eq_true] at h
  have hb := h.1.2
  rw [hhi] at hb
  simpa using hb

/-- Claim-side description of the `-modifier` tail of a canonical CalVer
string. -/
def calverTail (mod : Option (List Char)) : List Char :=
  match mod with | some m => '-' :: m | none => []

/-- Claim-side description of a canonical CalVer string for a format:
prefix, the dot-separated canonical capture groups, then the optional
modifier tail. -/
def calverCanonicalString (p g1 g2 : List Char) (g3 : Option (List Char))
    (mod : Option (List Char)) : List Char :=
  p ++ (g1 ++ '.' :: (g2 ++
    (match g3 with
     | some g => '.' :: (g ++ calverTail mod)
     | none => calverTail mod)))

theorem calver_canonical_roundtrip (fmt : Format) (p g1 g2 : List Char)
    (g3 : Option (List Char)) (mod : Option (List Char))
    (h1 : canonicalGroup fmt.major g1 = true)
    (h2 : canonicalGroup fmt.minor g2 = true)
    (h3 : ∀ t3, fmt.micro = some t3 →
      ∃ g, g3 = some g ∧ canonicalGroup t3 g = true)
    (h3n : fmt.micro = none → g3 = none)
    (hmod : ∀ m, mod = some m → m ≠ [] ∧ m.all isModifierChar = true ∧
      (splitOnChar '.' m).all
        (fun seg => !jsIsNumeric seg ||
          (allDigits seg && canonicalDigits seg)) = true) :
    (CalverChain.fromString fmt (calverCanonicalString p g1 g2 g3 mod)
        (some p)).map CalverChain.toString =
      some (calverCanonicalString p g1 g2 g3 mod) := by
  have hmodhead : ∀ cc, (calverTail mod).head? = some cc →
      isDigitChar cc = false := by
    rcases mod with _ | m
    · intro cc h
      simp [calverTail] at h
    · intro cc h
      rw [show calverTail (some m) = '-' :: m from rfl] at h
      injection h with h
      subst h
      decide
  have hmodparse : parseModTail (calverTail mod) = some mod := by
    rcases mod with _ | m
    · rfl
    · obtain ⟨hm1, hm2, -⟩ := hmod m rfl
      rw [show calverTail (some m) = '-' :: m from rfl]
      simp [parseModTail, hm1, hm2]
  have hmodstr : modifiersToString (getModifiers mod) = calverTail mod := by
    rcases mod with _ | m
    · rfl
    · obtain ⟨hm1, hm2, hm3⟩ := hmod m rfl
      rw [show calverTail (some m) = '-' :: m from rfl]
      refine modifiersToString_getModifiers m hm1 ?_
      intro seg hs hnum
      simp only [List.all_eq_true] at hm3
      have hx := hm3 seg hs
      simp only [Bool.or_eq_true, Bool.not_eq_true', Bool.and_eq_true] at hx
      rcases hx with h | h
      · rw [hnum] at h
        cases h
      · exact h
  rcases hfm : fmt.micro with _ | t3
  · have hg3 : g3 = none := h3n hfm
    subst hg3
    rw [calverCanonicalString]
    rw [CalverChain.fromString]
    dsimp only
    rw [if_pos (List.isPrefixOf_iff_prefix.mpr (List.prefix_append p _))]
    simp only [Option.bind_eq_bind, Option.some_bind]
    rw [List.drop_left, hfm]
    dsimp only
    rw [matchTwoGroups_canonical (tokenBounds fmt.major)
      (tokenBounds fmt.minor) g1 (g2 ++ calverTail mod) g2 mod
      (canonicalGroup_allDigits _ _ h1) (tokenBounds_lo_pos _)
      (canonicalGroup_lo _ _ h1) (canonicalGroup_hi _ _ h1)
      (matchLast_canonical _ g2 (calverTail mod) mod
        (canonicalGroup_allDigits _ _ h2) (tokenBounds_lo_pos _)
        (canonicalGroup_lo _ _ h2) (canonicalGroup_hi _ _ h2)
        hmodhead hmodparse)]
    simp only [Option.map_some']
    congr 1
    rw [CalverChain.toString, CalverChain.construct]
    simp only [Option.getD]
    rw [hfm]
    rw [formatVersionCore_canonical _ _ h1, formatVersionCore_canonical _ _ h2,
      hmodstr]
    simp [List.append_assoc]
  · obtain ⟨gv, hg3, hcg3⟩ := h3 t3 hfm
    subst hg3
    rw [calverCanonicalString]
    rw [CalverChain.fromString]
    dsimp only
    rw [if_pos (List.isPrefixOf_iff_prefix.mpr (List.prefix_append p _))]
    simp only [Option.bind_eq_bind, Option.some_bind]
    rw [List.drop_left, hfm]
    dsimp only
    rw [matchThreeGroups_canonical (tokenBounds fmt.major)
      (tokenBounds fmt.minor) (tokenBounds t3) g1
      (g2 ++ '.' :: (gv ++ calverTail mod)) g2 gv mod
      (canonicalGroup_allDigits _ _ h1) (tokenBounds_lo_pos _)
      (canonicalGroup_lo _ _ h1) (canonicalGroup_hi _ _ h1)
      (matchTwoGroups_canonical (tokenBounds fmt.minor) (tokenBounds t3)
        g2 (gv ++ calverTail mod) gv mod
        (canonicalGroup_allDigits _ _ h2) (tokenBounds_lo_pos _)
        (canonicalGroup_lo _ _ h2) (canonicalGroup_hi _ _ h2)
        (matchLast_canonical _ gv (calverTail mod) mod
          (canonicalGroup_allDigits _ _ hcg3) (tokenBounds_lo_pos _)
          (canonicalGroup_lo _ _ hcg3) (canonicalGroup_hi _ _ hcg3)
          hmodhead hmodparse))]
    simp only [Option.map_some']
    congr 1
    rw [CalverChain.toString, CalverChain.construct]
    simp only [Option.getD]
    rw [hfm]
    rw [formatVersionCore_canonical _ _ h1, formatVersionCore_canonical _ _ h2,
      hmodstr]
    dsimp only
    rw [formatVersionCore_canonical _ _ hcg3]
    simp [List.append_assoc]

/-- C1 (amended): round-trip holds on canonical version strings.  For
SemVer: a string assembled from a prefix, canonically-rendered core
numbers, a valid pre-release whose numeric-looking (`Number`-parseable)
dot-segments are canonical digit runs, and a valid build, is accepted by
`fromString` and re-rendered verbatim by `toString`.  For CalVer (chain
variant): a string assembled from a prefix, canonical capture groups for
the format's tokens, and a well-formed modifier chain with the same
numeric-segment condition, is accepted under the compiled format and
re-rendered verbatim.  (On non-canonical accepted strings `toString` can
differ from the input — see the counterexample.) -/
theorem c1_round_trip :
    (∀ (p : List Char) (M m q : Nat) (pre bld : Option (List Char)),
      (∀ pr, pre = some pr → pr ≠ [] ∧ validPre pr = true ∧
        (splitOnChar '.' pr).all
          (fun seg => !jsIsNumeric seg || allDigits seg) = true) →
      (∀ b, bld = some b → b ≠ [] ∧ validBuild b = true) →
      (SemVer.fromString (semverCanonicalString p M m q pre bld)
          (some p)).map SemVer.toString =
        some (semverCanonicalString p M m q pre bld)) ∧
    (∀ (fmt : Format) (p g1 g2 : List Char) (g3 mod : Option (List Char)),
      canonicalGroup fmt.major g1 = true →
      canonicalGroup fmt.minor g2 = true →
      (∀ t3, fmt.micro = some t3 →
        ∃ g, g3 = some g ∧ canonicalGroup t3 g = true) →
      (fmt.micro = none → g3 = none) →
      (∀ m, mod = some m → m ≠ [] ∧ m.all isModifierChar = true ∧
        (splitOnChar '.' m).all
          (fun seg => !jsIsNumeric seg ||
            (allDigits seg && canonicalDigits seg)) = true) →
      (CalverChain.fromString fmt (calverCanonicalString p g1 g2 g3 mod)
          (some p)).map CalverChain.toString =
        some (calverCanonicalString p g1 g2 g3 mod)) :=
  ⟨semver_canonical_roundtrip, calver_canonical_roundtrip⟩

/-- Witness for C1 at concrete canonical strings. -/
theorem c1_round_trip_witness :
    (SemVer.fromString "v1.2.3-alpha.1+007".toList
        (some "v".toList)).map SemVer.toString =
      some "v1.2.3-alpha.1+007".toList ∧
    (CalverChain.fromString
        ⟨CalToken.YYYY, CalToken.MINOR, some CalToken.MICRO⟩
        "2023.1.0-rc.1".toList (some [])).map CalverChain.toString =
      some "2023.1.0-rc.1".toList := by
  constructor
  · have h := c1_round_trip.1 "v".toList 1 2 3 (some "alpha.1".toList)
      (some "007".toList)
      (by
        intro pr hpr
        injection hpr with hpr
        subst hpr
        exact ⟨by decide, by decide, by decide⟩)
      (by
        intro b hb
        injection hb with hb
        subst hb
        exact ⟨by decide, by decide⟩)
    have harg : semverCanonicalString "v".toList 1 2 3
        (some "alpha.1".toList) (some "007".toList) =
        "v1.2.3-alpha.1+007".toList := by decide
    rw [harg] at h
    exact h
  · have h := c1_round_trip.2
      ⟨CalToken.YYYY, CalToken.MINOR, some CalToken.MICRO⟩
      [] "2023".toList "1".toList (some "0".toList) (some "rc.1".toList)
      (by decide) (by decide)
      (by
        intro t3 ht3
        injection ht3 with ht3
        subst ht3
        exact ⟨"0".toList, rfl, by decide⟩)
      (fun hnone => nomatch hnone)
      (by
        intro mm hmm
        injection hmm with hmm
        subst hmm
        exact ⟨by decide, by decide, by decide⟩)
    have harg : calverCanonicalString [] "2023".toList "1".toList
        (some "0".toList) (some "rc.1".toList) =
        "2023.1.0-rc.1".toList := by decide
    rw [harg] at h
    exact h
